import Mathlib

/-!
Shallow embedding of the springshare-oclc-search request pipeline
(src/oclc/discovery.py, src/oclc/auth.py, src/springshare/formatter.py,
src/app.py) and proofs about it.

Python strings are modelled as `List Char` / `String`; machine integers as
`Int` (Python ints are unbounded, so no modular arithmetic is needed);
fallible Python code returns `Except`.
-/

namespace SOS

/-- Code points CPython treats as whitespace (Py_UNICODE_ISSPACE): TAB
through CR, the separators U+001C-U+001F, space, NEL U+0085, no-break space
U+00A0, Ogham space mark U+1680, the fixed-width spaces U+2000-U+200A, the
line and paragraph separators U+2028/U+2029, U+202F, U+205F and the
ideographic space U+3000. -/
def pySpaceCodes : List Nat :=
  [0x09, 0x0A, 0x0B, 0x0C, 0x0D, 0x1C, 0x1D, 0x1E, 0x1F, 0x20, 0x85, 0xA0,
   0x1680, 0x2000, 0x2001, 0x2002, 0x2003, 0x2004, 0x2005, 0x2006, 0x2007,
   0x2008, 0x2009, 0x200A, 0x2028, 0x2029, 0x202F, 0x205F, 0x3000]

/-- Whitespace characters recognised by Python `str.split()` / `str.strip()`
and by the regex class `\s` in Unicode (default) mode: all characters whose
code point is in `pySpaceCodes`. -/
def isPySpace (c : Char) : Bool :=
  pySpaceCodes.contains c.toNat

/-- Python `str.strip()` from the left. -/
def pyStripLeft (l : List Char) : List Char :=
  l.dropWhile isPySpace

/-- Python `str.strip()` from the right. -/
def pyStripRight (l : List Char) : List Char :=
  (l.reverse.dropWhile isPySpace).reverse

/-- Python `str.strip()`. -/
def pyStrip (l : List Char) : List Char :=
  pyStripRight (pyStripLeft l)

/-- One-pass scanner behind `str.split()`: `cur` holds the reversed
characters of the token being read. -/
def splitWsAux : List Char → List Char → List (List Char)
  | [], cur => if cur.isEmpty then [] else [cur.reverse]
  | c :: rest, cur =>
    if isPySpace c then
      if cur.isEmpty then splitWsAux rest []
      else cur.reverse :: splitWsAux rest []
    else splitWsAux rest (c :: cur)

/-- Python `str.split()` with no argument: split on runs of whitespace,
discarding empty pieces. -/
def pySplitWs (l : List Char) : List (List Char) :=
  splitWsAux l []

/-- Python `' '.join(pieces)`. -/
def joinSpace : List (List Char) → List Char
  | [] => []
  | [x] => x
  | x :: y :: rest => x ++ ' ' :: joinSpace (y :: rest)

/-- Python `' '.join(s.split())`: collapse whitespace runs to single spaces
and trim. -/
def normalizeWs (l : List Char) : List Char :=
  joinSpace (pySplitWs l)

/-- Value of a hex digit, `none` for a non-hex character
(as accepted inside a `%XX` escape by `urllib.parse.unquote`). -/
def hexVal (c : Char) : Option Nat :=
  let n := c.toNat
  if 48 ≤ n && n ≤ 57 then some (n - 48)
  else if 97 ≤ n && n ≤ 102 then some (n - 87)
  else if 65 ≤ n && n ≤ 70 then some (n - 55)
  else none

/-- The U+FFFD replacement character emitted for undecodable UTF-8 bytes
(`errors='replace'`, the default of `urllib.parse.unquote`). -/
def replChar : Char := Char.ofNat 0xFFFD

/-- Whether a byte is a UTF-8 continuation byte `10xxxxxx`. -/
def isCont (b : Nat) : Bool := 0x80 ≤ b && b < 0xC0

/-- UTF-8 decoding of a byte list with replacement of invalid input.
Modelled rule: each invalid lead byte or incomplete sequence yields one
U+FFFD (CPython applies the maximal-subpart rule, which differs only in how
many U+FFFD a malformed run yields; all theorems below are about inputs free
of percent-escapes, which never reach this decoder). -/
def utf8DecodeAux : Nat → List Nat → List Char
  | 0, _ => []
  | _ + 1, [] => []
  | fuel + 1, b :: rest =>
    if b < 0x80 then Char.ofNat b :: utf8DecodeAux fuel rest
    else if b < 0xC2 then replChar :: utf8DecodeAux fuel rest
    else if b < 0xE0 then
      match rest with
      | b2 :: rest2 =>
        if isCont b2 then
          Char.ofNat ((b - 0xC0) * 64 + (b2 - 0x80)) :: utf8DecodeAux fuel rest2
        else replChar :: utf8DecodeAux fuel rest
      | [] => [replChar]
    else if b < 0xF0 then
      match rest with
      | b2 :: b3 :: rest3 =>
        if isCont b2 && isCont b3 then
          let cp := (b - 0xE0) * 4096 + (b2 - 0x80) * 64 + (b3 - 0x80)
          if cp < 0x800 || (0xD800 ≤ cp && cp ≤ 0xDFFF) then
            replChar :: utf8DecodeAux fuel rest
          else Char.ofNat cp :: utf8DecodeAux fuel rest3
        else replChar :: utf8DecodeAux fuel rest
      | _ => [replChar]
    else if b < 0xF5 then
      match rest with
      | b2 :: b3 :: b4 :: rest4 =>
        if isCont b2 && isCont b3 && isCont b4 then
          let cp := (b - 0xF0) * 262144 + (b2 - 0x80) * 4096 +
            (b3 - 0x80) * 64 + (b4 - 0x80)
          if cp < 0x10000 || 0x110000 ≤ cp then replChar :: utf8DecodeAux fuel rest
          else Char.ofNat cp :: utf8DecodeAux fuel rest4
        else replChar :: utf8DecodeAux fuel rest
      | _ => [replChar]
    else replChar :: utf8DecodeAux fuel rest

/-- UTF-8 decoding with replacement, at fuel equal to the byte count: every
step consumes at least one byte while spending one fuel, so the fuel never
runs out before the input does and the scan is exact. -/
def utf8DecodeReplace (bs : List Nat) : List Char :=
  utf8DecodeAux bs.length bs

/-- Scanner behind `urllib.parse.unquote` (UTF-8, `errors='replace'`):
`bytes` accumulates the current run of `%XX` escapes, decoded together as
one UTF-8 byte string when the run ends; a `%` not followed by two hex
digits is kept literally. -/
def pyUnquoteAux : Nat → List Char → List Nat → List Char
  | 0, l, bytes => utf8DecodeReplace bytes ++ l
  | fuel + 1, '%' :: h1 :: h2 :: rest, bytes =>
    (match hexVal h1, hexVal h2 with
     | some a, some b => pyUnquoteAux fuel rest (bytes ++ [a * 16 + b])
     | _, _ =>
       utf8DecodeReplace bytes ++ '%' :: pyUnquoteAux fuel (h1 :: h2 :: rest) [])
  | fuel + 1, c :: rest, bytes => utf8DecodeReplace bytes ++ c :: pyUnquoteAux fuel rest []
  | _ + 1, [], bytes => utf8DecodeReplace bytes

/-- Python `urllib.parse.unquote` with default arguments, at fuel equal to
the character count: every step consumes at least one character while
spending one fuel, so the scan is exact. -/
def pyUnquote (l : List Char) : List Char :=
  pyUnquoteAux l.length l []

/-- Python `urllib.parse.unquote_plus`: replace `+` with space, then
percent-decode. -/
def unquote_plus (l : List Char) : List Char :=
  pyUnquote (l.map (fun c => if c = '+' then ' ' else c))

/-- Scanner for the Python regex `"[^"]+"`: `acc` holds the reversed body
read since an opening quote (`none` while outside a candidate match).  A
`"` immediately after an opening quote fails the `[^"]+` requirement and
itself becomes the next opening candidate, as in the regex engine's
position-by-position retry; an unclosed opening quote never matches. -/
def scanQuoted : List Char → Option (List Char) → List (List Char)
  | [], _ => []
  | c :: rest, none =>
    if c = '"' then scanQuoted rest (some []) else scanQuoted rest none
  | c :: rest, some acc =>
    if c = '"' then
      if acc.isEmpty then scanQuoted rest (some [])
      else ('"' :: acc.reverse ++ ['"']) :: scanQuoted rest none
    else scanQuoted rest (some (c :: acc))

/-- Matches of `"[^"]+"` in left-to-right order
(`re.findall(r'"[^"]+"', query)` in `sanitize_query`), each returned with
its quotes. -/
def findQuoted (l : List Char) : List (List Char) :=
  scanQuoted l none

/-- The literal placeholder `re.sub` writes over each quoted span
(`'QUOTED_PHRASE'` in `sanitize_query`). -/
def maskTok : List Char := "QUOTED_PHRASE".toList

/-- Scanner replacing every match of `"[^"]+"` with the placeholder, same
match discipline as `scanQuoted`; unmatched text is emitted verbatim. -/
def maskScan : List Char → Option (List Char) → List Char
  | [], none => []
  | [], some acc => '"' :: acc.reverse
  | c :: rest, none =>
    if c = '"' then maskScan rest (some []) else c :: maskScan rest none
  | c :: rest, some acc =>
    if c = '"' then
      if acc.isEmpty then '"' :: maskScan rest (some [])
      else maskTok ++ maskScan rest none
    else maskScan rest (some (c :: acc))

/-- Replacement of every match of `"[^"]+"` with the placeholder
(`re.sub(r'"[^"]+"', 'QUOTED_PHRASE', query)`). -/
def maskQuoted (l : List Char) : List Char :=
  maskScan l none

/-- The character class `[^\w\s\-\'äëïöüáéíóúàèìòùâêîôûãñõ@\./+]` of
`sanitize_query`, negated: `true` for characters the cleaning step keeps.
`\w` is modelled by its ASCII fragment (letters, digits, underscore); the
accented letters listed in the class are carried separately, exactly as the
source spells them.  Full Unicode `\w` is wider, so this keep-set is a
faithful under-approximation; every theorem below quantifies only over
characters it covers or over concrete ASCII inputs. -/
def inAllowClass (c : Char) : Bool :=
  (c.isAlpha || c.isDigit || c = '_') || isPySpace c || c = '-' || c = '\'' ||
    ("äëïöüáéíóúàèìòùâêîôûãñõ".toList).contains c ||
    c = '@' || c = '.' || c = '/' || c = '+'

/-- The cleaning step of `sanitize_query`: every character outside the
allow-class becomes a space. -/
def cleanChars (l : List Char) : List Char :=
  l.map (fun c => if inAllowClass c then c else ' ')

/-- Python `s.replace(pat, repl, 1)`: replace the first occurrence of `pat`
(the empty pattern matches at the front, as in Python). -/
def replaceFirst (l pat repl : List Char) : List Char :=
  match pat with
  | [] => repl ++ l
  | _ :: _ =>
    match l with
    | [] => []
    | c :: cs =>
      if pat.isPrefixOf (c :: cs) then repl ++ (c :: cs).drop pat.length
      else c :: replaceFirst cs pat repl

/-- Maximum accepted query length (`MAX_QUERY_LENGTH` in `discovery.py`). -/
def MAX_QUERY_LENGTH : Nat := 500

/-- Embedding of `sanitize_query` (`discovery.py`).  The `ValueError`s the
source raises are returned as `Except.error` carrying the same message; the
`except` clause of the source only logs and re-raises, so it adds nothing. -/
def sanitize_query (q : String) : Except String String :=
  if MAX_QUERY_LENGTH < q.length then
    .error "Query exceeds maximum length of 500 characters"
  else
    let q1 := pyStrip (unquote_plus q.toList)
    let q2 := q1.map (fun c => if c = '+' then ' ' else c)
    let phrases := findQuoted q2
    let t1 := maskQuoted q2
    let t2 := cleanChars t1
    let t3 := phrases.foldl (fun acc p => replaceFirst acc maskTok p) t2
    let t4 := normalizeWs t3
    if t4.isEmpty then .error "Query is empty after sanitization"
    else .ok (String.mk t4)

/-- The upstream sort enum (`VALID_SORT_OPTIONS` in `discovery.py`). -/
def VALID_SORT_OPTIONS : List String :=
  ["library", "recency", "bestMatch", "creator",
   "publicationDateAsc", "publicationDateDesc",
   "mostWidelyHeld", "title"]

/-- First-match association lookup, the behaviour of a Python dict whose
keys are distinct. -/
def lookupStr {α : Type} : List (String × α) → String → Option α
  | [], _ => none
  | (k, v) :: rest, key => if k = key then some v else lookupStr rest key

/-- Python `s.split(sep)` for a single separator character: splits at every
occurrence, keeping empty pieces (so `"_".split('_') == ['', '']`). -/
def splitOnChar (sep : Char) : List Char → List (List Char)
  | [] => [[]]
  | c :: rest =>
    let r := splitOnChar sep rest
    if c = sep then [] :: r
    else
      match r with
      | h :: t => (c :: h) :: t
      | [] => [[c]]

/-- The nested `sort_mappings` table of `map_springshare_sort`. -/
def sortMappings : List (String × List (String × String)) :=
  [("relevancy", [("desc", "bestMatch")]),
   ("title", [("asc", "title"), ("desc", "title desc")]),
   ("date", [("asc", "publicationDateAsc"), ("desc", "publicationDateDesc")]),
   ("library", [("asc", "library")]),
   ("creator", [("asc", "creator")]),
   ("popularity", [("desc", "mostWidelyHeld")])]

/-- Embedding of `map_springshare_sort` (`discovery.py`).  `None` and the
empty string are both falsy in `if not sort_param`; `sort_param.split('_')`
must yield exactly two parts or `ValueError` is raised. -/
def map_springshare_sort (sortParam : Option String) : Except String String :=
  match sortParam with
  | none => .ok "bestMatch"
  | some s =>
    if s = "" || s = "_" then .ok "bestMatch"
    else if s = "relevancy_desc" then .ok "bestMatch"
    else
      match (splitOnChar '_' s.toList).map (fun cs => String.mk cs) with
      | [field, direction] =>
        match lookupStr sortMappings field with
        | none =>
          .error ("Invalid sort field '" ++ field ++
            "'. Valid options: relevancy, title, date, library, creator, popularity")
        | some dirs =>
          match lookupStr dirs direction with
          | none =>
            .error ("Invalid direction '" ++ direction ++ "' for field '" ++
              field ++ "'. Valid directions: " ++
              String.intercalate ", " (dirs.map Prod.fst))
          | some v => .ok v
      | _ => .error ("Invalid sort format: " ++ s)

/-- Embedding of `validate_sort` (`discovery.py`): map the parameter, then
re-check the mapped value against `VALID_SORT_OPTIONS`; a non-empty mapped
value outside the enum is rejected. -/
def validate_sort (sort : String) : Except String Unit :=
  match map_springshare_sort (some sort) with
  | .error e => .error e
  | .ok m =>
    if m ≠ "" && !(VALID_SORT_OPTIONS.contains m) then
      .error ("Invalid sort option. Must be one of: " ++
        String.intercalate ", " VALID_SORT_OPTIONS)
    else .ok ()

/-- Configuration values consumed by the pipeline (`config.py`); secret
loading and environment parsing are outside the modelled core, so the
fields are taken as given. -/
structure Config where
  MAX_RESULTS_PER_PAGE : Int
  DEFAULT_RESULTS_PER_PAGE : Int
  DEFAULT_LIBRARY : String
  DEFAULT_SITE : String
  LIBRARY_MAPPINGS : List (String × String)
  SITE_MAPPINGS : List (String × String)
  URL_REPLACE_CHARS : List Char
  OCLC_BASE_URL : String

/-- The defaults `config.py` falls back to when no environment overrides
are present. -/
def defaultConfig : Config where
  MAX_RESULTS_PER_PAGE := 50
  DEFAULT_RESULTS_PER_PAGE := 10
  DEFAULT_LIBRARY := "SZH"
  DEFAULT_SITE := "worldcat"
  LIBRARY_MAPPINGS := []
  SITE_MAPPINGS := []
  URL_REPLACE_CHARS := ['-', '–', '—', '―']
  OCLC_BASE_URL := "https://discovery.api.oclc.org/worldcat-org-ci"

/-- Embedding of `validate_pagination` (`discovery.py`) for integer inputs;
the `int()` coercion is the identity on them.  `limit is None` selects the
configured default. -/
def validate_pagination (cfg : Config) (page : Int) (limit : Option Int) :
    Except String (Int × Int) :=
  if page < 1 then .error "Page number must be greater than 0"
  else
    match limit with
    | none =>
      let l := cfg.DEFAULT_RESULTS_PER_PAGE
      if 10000 < (page - 1) * l + 1 then
        .error "Requested page exceeds maximum offset of 10000"
      else .ok (page, l)
    | some l =>
      if l < 1 then .error "Results per page must be greater than 0"
      else if cfg.MAX_RESULTS_PER_PAGE < l then
        .error ("Results per page cannot exceed " ++ toString cfg.MAX_RESULTS_PER_PAGE)
      else if 10000 < (page - 1) * l + 1 then
        .error "Requested page exceeds maximum offset of 10000"
      else .ok (page, l)

/-- Embedding of `calculate_offset` (`discovery.py`). -/
def calculate_offset (page limit : Int) : Int :=
  (page - 1) * limit + 1

/-- JSON values, the shape of upstream response bodies and of the payload
dictionaries the service builds (floats do not occur in the modelled code
paths). -/
inductive Json where
  | null
  | bool (b : Bool)
  | int (n : Int)
  | str (s : String)
  | arr (xs : List Json)
  | obj (kvs : List (String × Json))
deriving Repr

/-- Python truthiness of a JSON value. -/
def pyTruthy : Json → Bool
  | .null => false
  | .bool b => b
  | .int n => n ≠ 0
  | .str s => s ≠ ""
  | .arr xs => !xs.isEmpty
  | .obj kvs => !kvs.isEmpty

/-- Exception classes raised in the modelled code paths.  Downstream, only
the split RequestException / everything-else matters, and RequestException
never escapes a modelled component, so the kinds below all land in the
generic handlers. -/
inductive PyErr where
  | typeError
  | keyError
  | attributeError
  | indexError
  | valueError
deriving DecidableEq, Repr

/-- Python `d.get(key, default)`; raises `AttributeError` on a value with no
`get` method (any non-dict). -/
def dictGet (j : Json) (key : String) (dflt : Json) : Except PyErr Json :=
  match j with
  | .obj kvs => .ok ((lookupStr kvs key).getD dflt)
  | _ => .error .attributeError

/-- Python `len`; raises `TypeError` on unsized values. -/
def pyLen : Json → Except PyErr Int
  | .str s => .ok s.length
  | .arr xs => .ok xs.length
  | .obj kvs => .ok kvs.length
  | _ => .error .typeError

/-- Python `x[0]`: indexes a string or list, is a key lookup (and here a
`KeyError`, string keys only) on a dict, and a `TypeError` otherwise. -/
def pyGetIdx0 : Json → Except PyErr Json
  | .str s =>
    match s.toList with
    | [] => .error .indexError
    | c :: _ => .ok (.str (String.mk [c]))
  | .arr xs =>
    match xs with
    | [] => .error .indexError
    | x :: _ => .ok x
  | .obj _ => .error .keyError
  | _ => .error .typeError

/-- Whether `pat` occurs as a contiguous run in `l` (Python `pat in s` for
strings). -/
def containsRun (l pat : List Char) : Bool :=
  match l with
  | [] => pat.isEmpty
  | _ :: rest => pat.isPrefixOf l || containsRun rest pat

/-- Embedding of `get_identifier` (`formatter.py`): first ISBN if present,
else first ISSN, else `None`; `and` short-circuits, so `len` is only
reached on truthy values. -/
def get_identifier (item : Json) : Except PyErr (Option Json) := do
  let isbns ← dictGet item "isbns" (.arr [])
  let fromIsbns ←
    (if pyTruthy isbns then do
      let n ← pyLen isbns
      if 0 < n then some <$> pyGetIdx0 isbns else pure none
    else pure none)
  match fromIsbns with
  | some v => return some v
  | none => do
    let issns ← dictGet item "issns" (.arr [])
    if pyTruthy issns then do
      let n ← pyLen issns
      if 0 < n then some <$> pyGetIdx0 issns else return none
    else return none

/-- Embedding of `get_discovery_site` (`formatter.py`): `if not
library_symbol` and `if not site` treat `None` and the empty string
alike. -/
def get_discovery_site (sym : Option String) (cfg : Config) : String :=
  match sym with
  | none => cfg.DEFAULT_SITE
  | some s =>
    if s = "" then cfg.DEFAULT_SITE
    else
      match lookupStr cfg.SITE_MAPPINGS s with
      | some site => if site = "" then cfg.DEFAULT_SITE else site
      | none => cfg.DEFAULT_SITE

/-- Embedding of `process_title_for_url` (`formatter.py`).  Replacement
characters are modelled as single characters, the shape of the default
configuration.  A truthy non-string title raises (`in` on the unsized value
in the replacement loop, or `.split()` when the loop is empty); the precise
exception class is irrelevant downstream, where everything lands in the
same generic handler. -/
def process_title_for_url (title : Json) (cfg : Config) : Except PyErr String :=
  if !pyTruthy title then .ok ""
  else
    match title with
    | .str s =>
      let t1 := cfg.URL_REPLACE_CHARS.foldl
        (fun acc ch => acc.map (fun c => if c = ch then ' ' else c)) s.toList
      let t2 := normalizeWs t1
      let ws := pySplitWs t2
      .ok (String.mk (if 20 < ws.length then joinSpace (ws.take 20) else t2))
    | _ => .error .typeError

/-- UTF-8 encoding of one character, as `urllib.parse.quote` applies before
percent-encoding. -/
def utf8Bytes (c : Char) : List Nat :=
  let n := c.toNat
  if n < 0x80 then [n]
  else if n < 0x800 then [0xC0 + n / 64, 0x80 + n % 64]
  else if n < 0x10000 then
    [0xE0 + n / 4096, 0x80 + (n / 64) % 64, 0x80 + n % 64]
  else
    [0xF0 + n / 262144, 0x80 + (n / 4096) % 64, 0x80 + (n / 64) % 64, 0x80 + n % 64]

/-- Uppercase hex digit of a value below 16. -/
def hexDigitU (n : Nat) : Char :=
  ("0123456789ABCDEF".toList).getD n '0'

/-- Characters `urllib.parse.quote` leaves unescaped with its default
`safe='/'`: ASCII letters and digits, `_`, `.`, `-`, `~` and `/`. -/
def quoteSafe (c : Char) : Bool :=
  c.isAlpha || c.isDigit || c = '_' || c = '.' || c = '-' || c = '~' || c = '/'

/-- Embedding of `urllib.parse.quote` with default arguments. -/
def pyQuote (s : String) : String :=
  String.mk ((s.toList.map (fun c =>
    if quoteSafe c then [c]
    else (utf8Bytes c).map (fun b => ['%', hexDigitU (b / 16), hexDigitU (b % 16)]) |>.flatten)).flatten)

/-- Embedding of `format_worldcat_url` (`formatter.py`). -/
def format_worldcat_url (title : Json) (site : String) (cfg : Config) :
    Except PyErr String := do
  let pt ← process_title_for_url title cfg
  return ("https://" ++ site ++ ".on.worldcat.org/search?queryString=" ++
    pyQuote ("ti:" ++ pt))

/-- One iteration of the result loop of `format_results` (`formatter.py`):
the formatted item appended for one upstream record. -/
def formatItem (cfg : Config) (site : String) (item : Json) : Except PyErr Json := do
  let identifier ← get_identifier item
  let title ← dictGet item "title" (.str "")
  let ocn ← dictGet item "oclcNumber" (.str "")
  let url ← format_worldcat_url title site cfg
  let author ← dictGet item "creator" (.str "")
  let date ← dictGet item "date" (.str "")
  let publisher ← dictGet item "publisher" (.str "")
  let fmt ← dictGet item "generalFormat" (.str "")
  return (.obj [("title", title), ("ocn", ocn), ("url", .str url),
    ("author", author), ("date", date), ("publisher", publisher),
    ("identifier",
      match identifier with
      | some v => if pyTruthy v then v else .str ""
      | none => .str ""),
    ("format", fmt)])

/-- Python `l[:n]` for an `Int` bound (a negative bound counts from the
end). -/
def pySliceTake {α : Type} (l : List α) (n : Int) : List α :=
  if n < 0 then l.take (l.length - (-n).toNat) else l.take n.toNat

/-- Python `items[:limit]` then iteration: strings yield their characters
as one-character strings, lists their elements; everything else raises. -/
def sliceIter (items : Json) (limit : Int) : Except PyErr (List Json) :=
  match items with
  | .str s => .ok ((pySliceTake s.toList limit).map (fun c => .str (String.mk [c])))
  | .arr xs => .ok (pySliceTake xs limit)
  | _ => .error .typeError

/-- The fixed `sort` member of every successful response
(`format_results`). -/
def sortObjJson : Json :=
  .obj [("field", .str "relevancy"), ("dir", .str "desc")]

/-- The fixed `sort_options` member of every successful response
(`format_results`). -/
def sortOptionsJson : Json :=
  .arr [.obj [("field", .str "relevancy"), ("dir", .str "desc"),
          ("label", .str "Most Relevant")],
        .obj [("field", .str "title"), ("dir", .str "asc"),
          ("label", .str "Title A-Z")]]

/-- The `for item in items[:limit]` loop of `format_results`: each record
is formatted and appended in order; the first exception aborts (the partial
list is discarded with the response under construction). -/
def formatLoop (cfg : Config) (site : String) : List Json → Except PyErr (List Json)
  | [] => .ok []
  | it :: rest => do
    let fi ← formatItem cfg site it
    let fs ← formatLoop cfg site rest
    return (fi :: fs)

/-- Body of the `try` block of `format_results` (`formatter.py`); the
`Config()` construction is modelled by the `cfg` argument, taken as
non-failing. -/
def format_results_inner (cfg : Config) (results : Json) (sym : Option String) :
    Except PyErr Json := do
  let total ← dictGet results "numberOfRecords" (.int 0)
  let items ← dictGet results "briefRecords" (.arr [])
  let n ← pyLen items
  let limit := min n cfg.DEFAULT_RESULTS_PER_PAGE
  let site := get_discovery_site sym cfg
  let itemList ← sliceIter items limit
  let formatted ← formatLoop cfg site itemList
  return (.obj [("total_results", total), ("perpage", .int limit),
    ("sort", sortObjJson), ("sort_options", sortOptionsJson),
    ("results", .arr formatted)])

/-- The degraded payload the `except` clause of `format_results` returns. -/
def fallbackResponse (cfg : Config) : Json :=
  .obj [("total_results", .int 0),
        ("perpage", .int cfg.DEFAULT_RESULTS_PER_PAGE),
        ("results", .arr [])]

/-- Embedding of `format_results` (`formatter.py`): the `try` body, with
every internal exception degraded to the fallback payload. -/
def format_results (cfg : Config) (results : Json) (sym : Option String) : Json :=
  match format_results_inner cfg results sym with
  | .ok r => r
  | .error _ => fallbackResponse cfg

/-- The token cache of `OCLCAuth` (`auth.py`): `self._token` and
`self._token_expiry`.  Time is modelled as integer seconds; the stored
expiry stands for the `datetime` the source computes. -/
structure AuthState where
  token : Option Json
  expiry : Option Int

/-- Embedding of `OCLCAuth._is_token_valid`: requires a truthy cached token
and a set expiry that is still in the future (a set `datetime` is always
truthy). -/
def authIsTokenValid (st : AuthState) (now : Int) : Bool :=
  match st.token, st.expiry with
  | some t, some e => pyTruthy t && now < e
  | _, _ => false

/-- Outcome of the token-endpoint POST inside `get_token`: the parsed JSON
body on success, or a `requests.exceptions.RequestException` once the
session's 3 retries with backoff are exhausted (retry timing is wall-clock
behaviour outside the shallow embedding). -/
inductive RefreshResult where
  | success (tokenData : Json)
  | failure

/-- Embedding of `OCLCAuth.get_token` (`auth.py`).  On the `.error` paths
the source has already stored `token_data` in the cache before raising; the
mutated cache is unobservable through the claims below, so the embedding
returns only the exception. -/
def get_token (st : AuthState) (now : Int) (refresh : RefreshResult) :
    Except PyErr (Option Json × AuthState) :=
  if authIsTokenValid st now then .ok (st.token, st)
  else
    match refresh with
    | .success td =>
      match td with
      | .obj kvs =>
        match lookupStr kvs "expires_in" with
        | some (.int e) => .ok (some td, ⟨some td, some (now + (e - 300))⟩)
        | some _ => .error .typeError
        | none => .error .keyError
      | _ => .error .typeError
    | .failure =>
      match st.token with
      | some t => .ok (some t, st)
      | none => .ok (none, st)

/-- Python `key in td` for the shapes a cached token can take: key lookup
on a dict, substring test on a string, membership on a list, `TypeError`
otherwise. -/
def pyContainsKey (td : Json) (key : String) : Except PyErr Bool :=
  match td with
  | .obj kvs => .ok ((lookupStr kvs key).isSome)
  | .str s => .ok (containsRun s.toList key.toList)
  | .arr xs => .ok (xs.any (fun x => match x with | .str t => t = key | _ => false))
  | _ => .error .typeError

/-- Embedding of `OCLCAuth.get_valid_token` (`auth.py`): the access-token
value when the (truthy) token data carries one, else `None`.  Subscripting
a non-dict that passed the containment test raises. -/
def get_valid_token (st : AuthState) (now : Int) (refresh : RefreshResult) :
    Except PyErr (Option Json × AuthState) := do
  let (td?, st2) ← get_token st now refresh
  match td? with
  | none => return (none, st2)
  | some td =>
    if !pyTruthy td then return (none, st2)
    else do
      let has ← pyContainsKey td "access_token"
      if has then
        match td with
        | .obj kvs => return (lookupStr kvs "access_token", st2)
        | _ => .error .typeError
      else return (none, st2)

/-- Embedding of `get_library_symbol` (`discovery.py`): first configured
domain that occurs case-insensitively in the referrer, else the default.
Lower-casing is modelled on the ASCII fragment.  The 5-second wall-clock
bailout and the blanket `except` cannot fire in a pure finite iteration and
both return the default anyway. -/
def get_library_symbol (cfg : Config) (referrer : Option String) : String :=
  match referrer with
  | none => cfg.DEFAULT_LIBRARY
  | some r =>
    if r = "" then cfg.DEFAULT_LIBRARY
    else
      let rlow := r.toLower.toList
      let rec findSym : List (String × String) → String
        | [] => cfg.DEFAULT_LIBRARY
        | (domain, sym) :: rest =>
          if containsRun rlow domain.toLower.toList then sym else findSym rest
      findSym cfg.LIBRARY_MAPPINGS

/-- Query parameters of the upstream search GET
(`params` in `search_worldcat`). -/
structure SearchParams where
  q : String
  offset : Int
  limit : Int
  heldBySymbol : String
  dbIds : String
  orderBy : String
deriving DecidableEq, Repr

/-- Outcome of the upstream search GET: `Timeout`, any other
`RequestException` (including the `raise_for_status` of an HTTP error
status), or a 2xx body parsed as JSON.  Bodies that fail JSON parsing are
outside the model (they would raise `ValueError` into the generic 500
handler).  The bearer header and 30s timeout are absorbed by the `world`
function supplying the outcome. -/
inductive FetchResult where
  | timeout
  | failure (msg : String)
  | success (body : Json)

/-- The error payload shape built at every failure return of
`search_worldcat` (`discovery.py`). -/
def searchErr (msg : String) : Json :=
  .obj [("error", .str msg), ("total_results", .int 0), ("results", .arr [])]

/-- The guarded sort validation of `search_worldcat`
(`if sort: validate_sort(sort)`): a falsy sort — absent or the empty
string — is not validated at all. -/
def sortCheck (sort : Option String) : Except String Unit :=
  match sort with
  | some s => if s ≠ "" then validate_sort s else .ok ()
  | none => .ok ()

/-- The guarded sort mapping of `search_worldcat`
(`mapped_sort = map_springshare_sort(sort) if sort else None`). -/
def mapSortOpt (sort : Option String) : Except String (Option String) :=
  match sort with
  | some s =>
    if s ≠ "" then (map_springshare_sort (some s)).map some else .ok none
  | none => .ok none

/-- Body of the outer `try` of `search_worldcat` (`discovery.py`), with the
early `return`s as `.ok` values and uncaught exceptions as `.error`. -/
def searchCore (cfg : Config) (st : AuthState) (now : Int)
    (refresh : RefreshResult) (query : String) (page : Int)
    (limit : Option Int) (referrer : Option String) (sort : Option String)
    (world : SearchParams → FetchResult) : Except PyErr (Json × Int) := do
  if query = "" || pyStrip query.toList = [] then
    return (searchErr "Search query cannot be empty", 400)
  match sortCheck sort with
  | .error e => return (searchErr e, 400)
  | .ok _ =>
  match sanitize_query query with
  | .error e => return (searchErr e, 400)
  | .ok cleaned =>
  match validate_pagination cfg page limit with
  | .error e => return (searchErr e, 400)
  | .ok (vp, vl) =>
  let offset := calculate_offset vp vl
  let (tok?, _st2) ← get_valid_token st now refresh
  let tokOk := match tok? with | some t => pyTruthy t | none => false
  if !tokOk then return (searchErr "Authentication failed", 401)
  let sym := get_library_symbol cfg referrer
  match mapSortOpt sort with
  | .error _ => .error .valueError
  | .ok mapped =>
  let orderBy := match mapped with
    | some m => if m ≠ "" then m else "bestMatch"
    | none => "bestMatch"
  let params : SearchParams :=
    ⟨cleaned, offset, vl, sym, "638", orderBy⟩
  match world params with
  | .timeout => return (searchErr "Request timed out", 503)
  | .failure msg => return (searchErr ("Request failed: " ++ msg), 503)
  | .success body => return (format_results cfg body (some sym), 200)

/-- Embedding of `search_worldcat` (`discovery.py`).  The
`RequestException` arm (503, "Search request failed") is unreachable from
the body — every `RequestException` is already caught at its call site —
so an escaped exception lands in the generic 500 arm. -/
def search_worldcat (cfg : Config) (st : AuthState) (now : Int)
    (refresh : RefreshResult) (query : String) (page : Int)
    (limit : Option Int) (referrer : Option String) (sort : Option String)
    (world : SearchParams → FetchResult) : Json × Int :=
  match searchCore cfg st now refresh query page limit referrer sort world with
  | .ok r => r
  | .error _ => (searchErr "An unexpected error occurred", 500)

/-- Python `int(s)` on a string: optional surrounding whitespace, an
optional sign, then at least one digit (numeric-literal underscores are not
modelled). -/
def pyParseInt (s : String) : Option Int :=
  let digitsVal : List Char → Option Int := fun ds =>
    if !ds.isEmpty && ds.all Char.isDigit then
      some (ds.foldl (fun a c => a * 10 + ((c.toNat : Int) - ('0'.toNat : Int))) 0)
    else none
  match pyStrip s.toList with
  | '+' :: ds => digitsVal ds
  | '-' :: ds => (digitsVal ds).map Int.neg
  | ds => digitsVal ds

/-- Embedding of the `/search` route handler (`app.py`).  Query-string
arguments arrive as optional strings; the JSONP `wrap_response` layer only
changes the serialisation, not the payload/status pair modelled here, and
the outer `except` is unreachable in the embedded (total) body. -/
def appSearch (cfg : Config) (qArg : String) (pageArg perpageArg sortArg : Option String)
    (referrer : Option String) (st : AuthState) (now : Int)
    (refresh : RefreshResult) (world : SearchParams → FetchResult) : Json × Int :=
  let query := String.mk (pyStrip qArg.toList)
  if query = "" then (searchErr "No search query provided", 400)
  else if MAX_QUERY_LENGTH < query.length then
    (searchErr "Query exceeds maximum length of 500 characters", 400)
  else
    match (match pageArg with | none => some 1 | some s => pyParseInt s) with
    | none => (searchErr "Invalid pagination parameters", 400)
    | some page =>
      if page < 1 then
        (.obj [("error", .str "Page number must be greater than 0"),
               ("total results", .int 0), ("results", .arr [])], 400)
      else
        match (match perpageArg with
               | none => some cfg.DEFAULT_RESULTS_PER_PAGE
               | some s => pyParseInt s) with
        | none => (searchErr "Invalid pagination parameters", 400)
        | some limit =>
          if limit < 1 || cfg.MAX_RESULTS_PER_PAGE < limit then
            (searchErr ("Results per page must be between 1 and " ++
              toString cfg.MAX_RESULTS_PER_PAGE), 400)
          else
            let rs := search_worldcat cfg st now refresh query page (some limit)
              referrer sortArg world
            let hasError := match rs.1 with
              | .obj kvs => (lookupStr kvs "error").isSome
              | _ => false
            if hasError then (rs.1, if rs.2 = 0 then 400 else rs.2)
            else (rs.1, if rs.2 = 0 then 200 else rs.2)

/-- Key lookup on a JSON value, `none` off a dict; used only to state
properties of payloads. -/
def jsonGetKey (j : Json) (key : String) : Option Json :=
  match j with
  | .obj kvs => lookupStr kvs key
  | _ => none

/-- No two adjacent spaces. -/
def noDoubleSpace : List Char → Bool
  | c1 :: c2 :: rest => !(c1 = ' ' && c2 = ' ') && noDoubleSpace (c2 :: rest)
  | _ => true

/-- Text already in sanitized form, the hypothesis of the amended
idempotence claim: non-empty, every character in the allow-class but not
`+` (which `unquote_plus` rewrites) and with space as its only whitespace
(other whitespace is collapsed to spaces), and no leading, trailing or
repeated space. -/
def sanitizeFixed (l : List Char) : Bool :=
  !l.isEmpty &&
  l.all (fun c => inAllowClass c && !(c = '+') && (!isPySpace c || c = ' ')) &&
  (match l.head? with | some c => !(c = ' ') | none => true) &&
  (match l.getLast? with | some c => !(c = ' ') | none => true) &&
  noDoubleSpace l

/-!  Theorems.  -/

theorem map_plus_id (l : List Char) (h : ∀ c ∈ l, c ≠ '+') :
    l.map (fun c => if c = '+' then ' ' else c) = l := by
  induction l with
  | nil => rfl
  | cons c rest ih =>
    simp only [List.map_cons, List.cons.injEq]
    constructor
    · rw [if_neg (h c (List.mem_cons_self c rest))]
    · exact ih (fun x hx => h x (List.mem_cons_of_mem c hx))

theorem pyUnquoteAux_no_pct (l : List Char) (h : ∀ c ∈ l, c ≠ '%') :
    pyUnquoteAux l.length l [] = l := by
  induction l with
  | nil => rfl
  | cons c rest ih =>
    have hc : c ≠ '%' := h c (List.mem_cons_self c rest)
    have ih2 := ih (fun x hx => h x (List.mem_cons_of_mem c hx))
    rw [pyUnquoteAux.eq_def]
    simp only [List.length_cons]
    split <;> simp_all [show utf8DecodeReplace [] = [] from rfl]

theorem dropWhile_head_not (l : List Char) (h : ∀ c, l.head? = some c → ¬ isPySpace c) :
    l.dropWhile isPySpace = l := by
  cases l with
  | nil => rfl
  | cons c rest =>
    rw [List.dropWhile_cons_of_neg]
    simp only [Bool.not_eq_true]
    have := h c rfl
    simp_all

theorem pyStrip_id (l : List Char)
    (hh : ∀ c, l.head? = some c → ¬ isPySpace c)
    (hl : ∀ c, l.getLast? = some c → ¬ isPySpace c) :
    pyStrip l = l := by
  unfold pyStrip pyStripLeft pyStripRight
  rw [dropWhile_head_not l hh]
  rw [dropWhile_head_not l.reverse (fun c hc => hl c (by rwa [List.head?_reverse] at hc))]
  exact List.reverse_reverse l

theorem scanQuoted_no_quote (l : List Char) (h : ∀ c ∈ l, c ≠ '"') :
    scanQuoted l none = [] := by
  induction l with
  | nil => rfl
  | cons c rest ih =>
    have hc : c ≠ '"' := h c (List.mem_cons_self c rest)
    simp only [scanQuoted, if_neg hc]
    exact ih (fun x hx => h x (List.mem_cons_of_mem c hx))

theorem maskScan_no_quote (l : List Char) (h : ∀ c ∈ l, c ≠ '"') :
    maskScan l none = l := by
  induction l with
  | nil => rfl
  | cons c rest ih =>
    have hc : c ≠ '"' := h c (List.mem_cons_self c rest)
    simp only [maskScan, if_neg hc]
    rw [ih (fun x hx => h x (List.mem_cons_of_mem c hx))]

theorem cleanChars_id (l : List Char) (h : ∀ c ∈ l, inAllowClass c = true) :
    cleanChars l = l := by
  unfold cleanChars
  induction l with
  | nil => rfl
  | cons c rest ih =>
    simp only [List.map_cons, List.cons.injEq]
    exact ⟨by rw [if_pos (h c (List.mem_cons_self c rest))],
      ih (fun x hx => h x (List.mem_cons_of_mem c hx))⟩

theorem noDoubleSpace_tail (c : Char) (l : List Char)
    (h : noDoubleSpace (c :: l) = true) : noDoubleSpace l = true := by
  cases l with
  | nil => rfl
  | cons d rest =>
    simp only [noDoubleSpace, Bool.and_eq_true] at h
    exact h.2

theorem splitWsAux_ne_nil (l cur : List Char) (h : cur ≠ []) :
    splitWsAux l cur ≠ [] := by
  induction l generalizing cur with
  | nil =>
    simp only [splitWsAux]
    rw [if_neg (by simpa using h)]
    simp
  | cons c rest ih =>
    simp only [splitWsAux]
    by_cases hs : isPySpace c
    · rw [if_pos hs, if_neg (by simpa using h)]
      simp
    · rw [if_neg hs]
      exact ih (c :: cur) (by simp)

theorem joinSplit_gen (l : List Char) :
    ∀ cur : List Char,
    (∀ c ∈ l, isPySpace c → c = ' ') →
    noDoubleSpace l = true →
    l.getLast? ≠ some ' ' →
    (cur = [] → l.head? ≠ some ' ') →
    joinSpace (splitWsAux l cur) = cur.reverse ++ l := by
  induction l with
  | nil =>
    intro cur _ _ _ _
    simp only [splitWsAux]
    by_cases h : cur.isEmpty
    · rw [if_pos h]
      simp only [joinSpace]
      rw [List.isEmpty_iff] at h
      simp [h]
    · rw [if_neg h]
      simp [joinSpace]
  | cons c rest ih =>
    intro cur honly hnd hlast hhead
    by_cases hs : isPySpace c
    · have hc : c = ' ' := honly c (List.mem_cons_self c rest) hs
      subst hc
      have hcur : cur ≠ [] := by
        intro h0
        exact hhead h0 rfl
      simp only [splitWsAux, if_pos hs]
      rw [if_neg (by simpa using hcur)]
      have hrest_ne : rest ≠ [] := by
        intro h0
        subst h0
        exact hlast rfl
      obtain ⟨d, rest2, hd⟩ := List.exists_cons_of_ne_nil hrest_ne
      subst hd
      have hdne : d ≠ ' ' := by
        simp only [noDoubleSpace, Bool.and_eq_true] at hnd
        intro h0
        subst h0
        simp at hnd
      have hdns : ¬ isPySpace d := by
        intro h0
        exact hdne (honly d (by simp) h0)
      have hrec := ih []
        (fun x hx h0 => honly x (List.mem_cons_of_mem _ hx) h0)
        (noDoubleSpace_tail _ _ hnd)
        (by
          rw [List.getLast?_cons_cons] at hlast
          exact hlast)
        (fun _ => by
          simp only [List.head?_cons]
          intro h0
          exact hdne (by injection h0))
      have hne := splitWsAux_ne_nil rest2 [d] (by simp)
      cases hsp : splitWsAux (d :: rest2) [] with
      | nil =>
        exfalso
        simp only [splitWsAux, if_neg hdns] at hsp
        exact hne hsp
      | cons t ts =>
        rw [hsp] at hrec
        simp only [joinSpace]
        rw [hrec]
        simp
    · simp only [splitWsAux, if_neg hs]
      have hrec := ih (c :: cur)
        (fun x hx h0 => honly x (List.mem_cons_of_mem _ hx) h0)
        (noDoubleSpace_tail _ _ hnd)
        (by
          cases rest with
          | nil => simp
          | cons d rest2 =>
            rw [List.getLast?_cons_cons] at hlast
            exact hlast)
        (by intro h0; cases h0)
      rw [hrec]
      simp

theorem normalizeWs_id (l : List Char)
    (honly : ∀ c ∈ l, isPySpace c → c = ' ')
    (hnd : noDoubleSpace l = true)
    (hlast : l.getLast? ≠ some ' ')
    (hhead : l.head? ≠ some ' ') :
    normalizeWs l = l := by
  unfold normalizeWs pySplitWs
  rw [joinSplit_gen l [] honly hnd hlast (fun _ => hhead)]
  rfl

/-- C8 (failing evaluation): "a+b" is non-empty, within the length limit,
free of whitespace, and every character — including `+` — lies in the
sanitizer's allow-class, yet `sanitize_query` rewrites it to "a b"
(`unquote_plus` and the explicit `replace` turn `+` into a space), so the
claimed idempotence on allow-class text fails. -/
theorem c8_sanitize_not_idempotent_cex :
    ("a+b".toList.all inAllowClass) = true ∧
    ("a+b".toList.all (fun c => !isPySpace c)) = true ∧
    noDoubleSpace "a+b".toList = true ∧
    sanitize_query "a+b" = .ok "a b" ∧
    "a b" ≠ "a+b" :=
  ⟨by decide, by decide, by decide, rfl, by decide⟩

/-- C8 amended: sanitize is the identity on every non-empty string within
the length limit whose characters lie in the allow-class except `+` (which
`unquote_plus` rewrites), whose only whitespace character is the plain
space, and which has no leading, trailing or repeated space. -/
theorem c8_sanitize_idempotent_amended (s : String)
    (hlen : s.length ≤ 500) (hfix : sanitizeFixed s.toList = true) :
    sanitize_query s = .ok s := by
  unfold sanitizeFixed at hfix
  simp only [Bool.and_eq_true] at hfix
  obtain ⟨⟨⟨⟨hne, hall⟩, hhead⟩, hlast⟩, hnd⟩ := hfix
  have hallc : ∀ c ∈ s.toList,
      inAllowClass c = true ∧ c ≠ '+' ∧ (isPySpace c → c = ' ') := by
    intro c hcm
    have h0 := List.all_eq_true.mp hall c hcm
    simp only [Bool.and_eq_true, Bool.or_eq_true, Bool.not_eq_true',
      decide_eq_true_eq, decide_eq_false_iff_not] at h0
    refine ⟨h0.1.1, h0.1.2, ?_⟩
    intro hs
    rcases h0.2 with h | h
    · rw [hs] at h
      cases h
    · exact h
  have hne2 : s.toList ≠ [] := by
    intro h0
    rw [h0] at hne
    cases hne
  have hheadp : ∀ c, s.toList.head? = some c → ¬ isPySpace c := by
    intro c hc hs
    have hmem : c ∈ s.toList := by
      cases hl : s.toList with
      | nil => rw [hl] at hc; cases hc
      | cons a t =>
        rw [hl, List.head?_cons] at hc
        injection hc with h1
        rw [← h1]
        exact List.mem_cons_self a t
    have hsp := (hallc c hmem).2.2 hs
    rw [hc] at hhead
    simp only [Bool.not_eq_true', decide_eq_false_iff_not] at hhead
    exact hhead hsp
  have hlastp : ∀ c, s.toList.getLast? = some c → ¬ isPySpace c := by
    intro c hc hs
    have hmem : c ∈ s.toList := by
      obtain ⟨h0, h1⟩ := List.mem_getLast?_eq_getLast (x := c) (by rw [hc]; rfl)
      rw [h1]
      exact List.getLast_mem h0
    have hsp := (hallc c hmem).2.2 hs
    rw [hc] at hlast
    simp only [Bool.not_eq_true', decide_eq_false_iff_not] at hlast
    exact hlast hsp
  have hplus : ∀ c ∈ s.toList, c ≠ '+' := fun c hc => (hallc c hc).2.1
  have hpct : ∀ c ∈ s.toList, c ≠ '%' := by
    intro c hc h0
    exact absurd ((hallc c hc).1) (by rw [h0]; decide)
  have hquote : ∀ c ∈ s.toList, c ≠ '"' := by
    intro c hc h0
    exact absurd ((hallc c hc).1) (by rw [h0]; decide)
  have hmap : s.toList.map (fun c => if c = '+' then ' ' else c) = s.toList :=
    map_plus_id _ hplus
  have h1 : unquote_plus s.toList = s.toList := by
    unfold unquote_plus pyUnquote
    rw [hmap]
    exact pyUnquoteAux_no_pct _ hpct
  have h2 : pyStrip s.toList = s.toList := pyStrip_id _ hheadp hlastp
  have h3 : findQuoted s.toList = [] := scanQuoted_no_quote _ hquote
  have h4 : maskQuoted s.toList = s.toList := maskScan_no_quote _ hquote
  have h5 : cleanChars s.toList = s.toList :=
    cleanChars_id _ (fun c hc => (hallc c hc).1)
  have h6 : normalizeWs s.toList = s.toList := by
    apply normalizeWs_id
    · exact fun c hc => (hallc c hc).2.2
    · exact hnd
    · intro h0
      rw [h0] at hlast
      cases hlast
    · intro h0
      rw [h0] at hhead
      cases hhead
  have hemp : s.toList.isEmpty = false := by
    cases hl : s.toList with
    | nil => exact absurd hl hne2
    | cons a t => rfl
  have hlen2 : ¬ (MAX_QUERY_LENGTH < s.length) := by
    unfold MAX_QUERY_LENGTH
    omega
  unfold sanitize_query
  rw [if_neg hlen2]
  simp only [h1, h2, hmap, h3, h4, h5, List.foldl_nil, h6, hemp]
  rfl

/-- Witness for the amended C8 at the concrete already-sanitized query
"python". -/
theorem c8_sanitize_idempotent_amended_witness :
    sanitize_query "python" = .ok "python" :=
  c8_sanitize_idempotent_amended "python" (by decide) (by decide)

theorem containsRun_true_iff (l pat : List Char) :
    containsRun l pat = true ↔ pat <:+: l := by
  induction l with
  | nil =>
    simp only [containsRun, List.isEmpty_iff]
    constructor
    · intro h
      rw [h]
    · intro h
      exact List.eq_nil_of_infix_nil h
  | cons c rest ih =>
    simp only [containsRun, Bool.or_eq_true, List.isPrefixOf_iff_prefix, ih,
      List.infix_cons_iff]

theorem stripLeft_mid (pre rest : List Char)
    (h : ∀ c, rest.head? = some c → ¬ isPySpace c) :
    ∃ pre2, pyStripLeft (pre ++ rest) = pre2 ++ rest ∧ pre2 <:+ pre := by
  induction pre with
  | nil =>
    refine ⟨[], ?_, List.nil_suffix⟩
    simp only [List.nil_append]
    exact dropWhile_head_not rest h
  | cons c pre2 ih =>
    by_cases hc : isPySpace c
    · obtain ⟨p2, hp2, hs⟩ := ih
      refine ⟨p2, ?_, hs.trans (List.suffix_cons c pre2)⟩
      unfold pyStripLeft at hp2 ⊢
      rw [List.cons_append, List.dropWhile_cons_of_pos hc]
      exact hp2
    · refine ⟨c :: pre2, ?_, List.suffix_rfl⟩
      unfold pyStripLeft
      rw [List.cons_append, List.dropWhile_cons_of_neg (by simpa using hc)]

theorem stripRight_mid (a post : List Char)
    (h : ∀ c, a.getLast? = some c → ¬ isPySpace c) :
    ∃ post2, pyStripRight (a ++ post) = a ++ post2 ∧ post2 <+: post := by
  obtain ⟨p2, hp2, hs⟩ := stripLeft_mid post.reverse a.reverse
    (fun c hc => h c (by rwa [List.head?_reverse] at hc))
  refine ⟨p2.reverse, ?_, ?_⟩
  · unfold pyStripRight
    unfold pyStripLeft at hp2
    rw [List.reverse_append, hp2, List.reverse_append, List.reverse_reverse]
  · rw [← List.reverse_suffix, List.reverse_reverse]
    exact hs

theorem scanBody (post : List Char) :
    ∀ (b acc : List Char), (∀ c ∈ b, c ≠ '"') → (acc ≠ [] ∨ b ≠ []) →
    scanQuoted (b ++ '"' :: post) (some acc) =
      ('"' :: ((acc.reverse ++ b) ++ ['"'])) :: scanQuoted post none := by
  intro b
  induction b with
  | nil =>
    intro acc _ hne
    have hacc : acc ≠ [] := by
      rcases hne with h | h
      · exact h
      · exact absurd rfl h
    rw [List.nil_append]
    conv_lhs => rw [scanQuoted]
    rw [if_pos rfl, if_neg (by simpa using hacc)]
    simp
  | cons c b2 ih =>
    intro acc hq _
    have hc : c ≠ '"' := hq c (List.mem_cons_self c b2)
    rw [List.cons_append]
    conv_lhs => rw [scanQuoted]
    rw [if_neg hc]
    rw [ih (c :: acc) (fun x hx => hq x (List.mem_cons_of_mem c hx)) (Or.inl (by simp))]
    simp

theorem scan_structured (ph post : List Char) (hph : ph ≠ [])
    (hq1 : ∀ c ∈ ph, c ≠ '"') (hq2 : ∀ c ∈ post, c ≠ '"') :
    ∀ pre : List Char, (∀ c ∈ pre, c ≠ '"') →
    scanQuoted (pre ++ '"' :: (ph ++ '"' :: post)) none =
      ['"' :: (ph ++ ['"'])] := by
  intro pre
  induction pre with
  | nil =>
    intro _
    rw [List.nil_append]
    conv_lhs => rw [scanQuoted]
    rw [if_pos rfl]
    rw [scanBody post ph [] hq1 (Or.inr hph)]
    rw [scanQuoted_no_quote post hq2]
    simp
  | cons c pre2 ih =>
    intro hq0
    have hc : c ≠ '"' := hq0 c (List.mem_cons_self c pre2)
    rw [List.cons_append]
    conv_lhs => rw [scanQuoted]
    rw [if_neg hc]
    exact ih (fun x hx => hq0 x (List.mem_cons_of_mem c hx))

theorem maskBody (post : List Char) :
    ∀ (b acc : List Char), (∀ c ∈ b, c ≠ '"') → (acc ≠ [] ∨ b ≠ []) →
    maskScan (b ++ '"' :: post) (some acc) = maskTok ++ maskScan post none := by
  intro b
  induction b with
  | nil =>
    intro acc _ hne
    have hacc : acc ≠ [] := by
      rcases hne with h | h
      · exact h
      · exact absurd rfl h
    rw [List.nil_append]
    conv_lhs => rw [maskScan]
    rw [if_pos rfl, if_neg (by simpa using hacc)]
  | cons c b2 ih =>
    intro acc hq _
    have hc : c ≠ '"' := hq c (List.mem_cons_self c b2)
    rw [List.cons_append]
    conv_lhs => rw [maskScan]
    rw [if_neg hc]
    exact ih (c :: acc) (fun x hx => hq x (List.mem_cons_of_mem c hx)) (Or.inl (by simp))

theorem mask_structured (ph post : List Char) (hph : ph ≠ [])
    (hq1 : ∀ c ∈ ph, c ≠ '"') (hq2 : ∀ c ∈ post, c ≠ '"') :
    ∀ pre : List Char, (∀ c ∈ pre, c ≠ '"') →
    maskScan (pre ++ '"' :: (ph ++ '"' :: post)) none =
      pre ++ maskTok ++ post := by
  intro pre
  induction pre with
  | nil =>
    intro _
    rw [List.nil_append]
    conv_lhs => rw [maskScan]
    rw [if_pos rfl]
    rw [maskBody post ph [] hq1 (Or.inr hph)]
    rw [maskScan_no_quote post hq2]
    simp
  | cons c pre2 ih =>
    intro hq0
    have hc : c ≠ '"' := hq0 c (List.mem_cons_self c pre2)
    rw [List.cons_append]
    conv_lhs => rw [maskScan]
    rw [if_neg hc]
    rw [ih (fun x hx => hq0 x (List.mem_cons_of_mem c hx))]
    simp

theorem cleanChars_fix (l : List Char) (h : ∀ m ∈ cleanChars l, m ≠ ' ') :
    cleanChars l = l := by
  unfold cleanChars at h ⊢
  induction l with
  | nil => rfl
  | cons c rest ih =>
    simp only [List.map_cons, List.cons.injEq]
    constructor
    · by_cases hc : inAllowClass c
      · rw [if_pos hc]
      · exfalso
        exact h ' ' (by simp [if_neg hc]) rfl
    · apply ih
      intro m hm
      apply h m
      simp only [List.map_cons]
      exact List.mem_cons_of_mem _ hm

theorem clean_reflect (l pat : List Char) (hp : ∀ m ∈ pat, m ≠ ' ')
    (h : pat <:+: cleanChars l) : pat <:+: l := by
  obtain ⟨s, t, heq⟩ := h
  have heq2 : cleanChars l = s ++ (pat ++ t) := by rw [← heq]; simp
  unfold cleanChars at heq2
  rw [List.map_eq_append_iff] at heq2
  obtain ⟨l1, l2, hl, _, hmap2⟩ := heq2
  rw [List.map_eq_append_iff] at hmap2
  obtain ⟨l21, l22, hl2, hmap21, _⟩ := hmap2
  have hfix : cleanChars l21 = l21 := by
    apply cleanChars_fix
    intro m hm
    unfold cleanChars at hm
    rw [hmap21] at hm
    exact hp m hm
  have hl21 : l21 = pat := by
    unfold cleanChars at hfix
    rw [← hfix, hmap21]
  refine ⟨l1, l22, ?_⟩
  rw [hl, hl2, hl21]
  simp

theorem replaceFirst_cons (c : Char) (cs : List Char) (p : Char)
    (p2 repl : List Char) :
    replaceFirst (c :: cs) (p :: p2) repl =
      if (p :: p2).isPrefixOf (c :: cs) then
        repl ++ (c :: cs).drop (p :: p2).length
      else c :: replaceFirst cs (p :: p2) repl := rfl

theorem replaceFirst_boundary (pat repl : List Char) (hpat : pat ≠ [])
    (hborder : ∀ s, s < pat.length → 0 < s →
      pat.drop s ≠ pat.take (pat.length - s)) :
    ∀ (a b : List Char), ¬ pat <:+: a →
      replaceFirst (a ++ pat ++ b) pat repl = a ++ repl ++ b := by
  intro a
  induction a with
  | nil =>
    intro b _
    obtain ⟨p, pat2, hp⟩ := List.exists_cons_of_ne_nil hpat
    rw [List.nil_append, List.nil_append]
    rw [hp, List.cons_append, replaceFirst_cons]
    rw [if_pos (List.isPrefixOf_iff_prefix.mpr
      (by rw [← List.cons_append]; exact List.prefix_append _ b))]
    rw [← List.cons_append, List.drop_left]
  | cons c a2 ih =>
    intro b hnota
    have hpre : ¬ pat <+: (c :: a2) ++ pat ++ b := by
      intro hp
      by_cases hlen : pat.length ≤ (c :: a2).length
      · rw [List.append_assoc] at hp
        rw [List.isPrefix_append_of_length hlen] at hp
        exact hnota hp.isInfix
      · push_neg at hlen
        have hs1 : 0 < (c :: a2).length := by simp
        have heqtake := List.prefix_iff_eq_take.mp hp
        have hdrop : pat.drop (c :: a2).length =
            pat.take (pat.length - (c :: a2).length) := by
          conv_lhs => rw [heqtake]
          rw [List.drop_take]
          rw [List.append_assoc, List.drop_left]
          rw [List.take_append_of_le_length (by omega)]
        exact hborder (c :: a2).length hlen hs1 hdrop
    obtain ⟨p, pat2, hp⟩ := List.exists_cons_of_ne_nil hpat
    rw [List.cons_append, List.cons_append]
    rw [hp, replaceFirst_cons]
    rw [if_neg (by
      rw [List.isPrefixOf_iff_prefix, ← hp]
      intro h0
      exact hpre (by
        rw [List.cons_append, List.cons_append]
        exact h0))]
    rw [← hp]
    rw [ih b (fun h0 => hnota (h0.trans (List.infix_cons_iff.mpr
      (Or.inr List.infix_rfl))))]
    rw [List.cons_append, List.cons_append]

theorem prefix_split_at {α : Type} (c : α) :
    ∀ (a : List α) (x : List α) (b : List α), c ∉ x → x <+: a ++ c :: b → x <+: a := by
  intro a
  induction a with
  | nil =>
    intro x b hc h
    cases x with
    | nil => exact List.nil_prefix
    | cons e x2 =>
      rw [List.nil_append, List.cons_prefix_cons] at h
      exact absurd (h.1 ▸ List.mem_cons_self e x2) hc
  | cons d a2 ih =>
    intro x b hc h
    cases x with
    | nil => exact List.nil_prefix
    | cons e x2 =>
      rw [List.cons_append, List.cons_prefix_cons] at h
      rw [List.cons_prefix_cons]
      exact ⟨h.1, ih x2 b (fun h0 => hc (List.mem_cons_of_mem e h0)) h.2⟩

theorem infix_split_at {α : Type} (c : α) :
    ∀ (a : List α) (x : List α) (b : List α), c ∉ x →
      x <:+: a ++ c :: b → x <:+: a ∨ x <:+: b := by
  intro a
  induction a with
  | nil =>
    intro x b hc h
    rw [List.nil_append, List.infix_cons_iff] at h
    rcases h with h | h
    · have := prefix_split_at c [] x b hc (by simpa using h)
      left
      exact this.isInfix
    · right
      exact h
  | cons d a2 ih =>
    intro x b hc h
    rw [List.cons_append, List.infix_cons_iff] at h
    rcases h with h | h
    · left
      exact (prefix_split_at c (d :: a2) x b hc (by simpa using h)).isInfix
    · rcases ih x b hc h with h2 | h2
      · left
        exact h2.trans (List.infix_cons_iff.mpr (Or.inr List.infix_rfl))
      · right
        exact h2

theorem self_prefix_joinSpace (y : List Char) (ts : List (List Char)) :
    y <+: joinSpace (y :: ts) := by
  cases ts with
  | nil => exact List.prefix_rfl
  | cons t ts2 =>
    simp only [joinSpace]
    exact List.prefix_append y _

theorem tail_infix_joinSpace (y : List Char) (ts : List (List Char)) :
    joinSpace ts <:+: joinSpace (y :: ts) := by
  cases ts with
  | nil => simp [joinSpace]
  | cons t ts2 =>
    simp only [joinSpace]
    exact ⟨y ++ [' '], [], by simp⟩

theorem getLast_right (a b : List Char) (hb : b ≠ []) :
    (a ++ b).getLast? = b.getLast? := by
  rw [← List.head?_reverse, ← List.head?_reverse, List.reverse_append]
  obtain ⟨d, bs, hd⟩ := List.exists_cons_of_ne_nil
    (show b.reverse ≠ [] from by simpa using hb)
  rw [hd, List.cons_append, List.head?_cons, List.head?_cons]

theorem noDoubleSpace_cons (c : Char) (l : List Char) (hc : c ≠ ' ')
    (h : noDoubleSpace l = true) : noDoubleSpace (c :: l) = true := by
  cases l with
  | nil => rfl
  | cons d rest =>
    simp only [noDoubleSpace, Bool.and_eq_true]
    exact ⟨by simp [hc], h⟩

theorem noDoubleSpace_concat (l : List Char) (c : Char) (hc : c ≠ ' ')
    (h : noDoubleSpace l = true) : noDoubleSpace (l ++ [c]) = true := by
  induction l with
  | nil => rfl
  | cons d rest ih =>
    cases rest with
    | nil =>
      simp only [List.cons_append, List.nil_append, noDoubleSpace, Bool.and_eq_true]
      exact ⟨by simp [hc], by trivial⟩
    | cons e rest2 =>
      simp only [noDoubleSpace, Bool.and_eq_true] at h
      simp only [List.cons_append, noDoubleSpace, Bool.and_eq_true] at ih ⊢
      exact ⟨h.1, ih h.2⟩

theorem noDoubleSpace_right (a b : List Char) (h : noDoubleSpace (a ++ b) = true) :
    noDoubleSpace b = true := by
  induction a with
  | nil => exact h
  | cons c a' ih => exact ih (noDoubleSpace_tail c (a' ++ b) h)

theorem split_first_space : ∀ (l : List Char), ' ' ∈ l →
    ∃ t y, l = t ++ ' ' :: y ∧ ' ' ∉ t := by
  intro l
  induction l with
  | nil => intro h; cases h
  | cons c rest ih =>
    intro h
    by_cases hc : c = ' '
    · exact ⟨[], rest, by rw [hc, List.nil_append], by simp⟩
    · have hmem : ' ' ∈ rest := by
        rcases List.mem_cons.mp h with h0 | h0
        · exact absurd h0.symm hc
        · exact h0
      obtain ⟨t, y, hty, hnt⟩ := ih hmem
      refine ⟨c :: t, y, by rw [List.cons_append, hty], ?_⟩
      simp only [List.mem_cons]
      rintro (h0 | h0)
      · exact hc h0.symm
      · exact hnt h0

theorem splitWsAux_chunk : ∀ (t r acc : List Char), (∀ c ∈ t, ¬ isPySpace c) →
    splitWsAux (t ++ r) acc = splitWsAux r (t.reverse ++ acc) := by
  intro t
  induction t with
  | nil => intro r acc _; simp
  | cons c t' ih =>
    intro r acc h
    have hc : ¬ isPySpace c = true := h c (List.mem_cons_self c t')
    rw [List.cons_append]
    simp only [splitWsAux, if_neg hc]
    rw [ih r (c :: acc) (fun x hx => h x (List.mem_cons_of_mem c hx))]
    simp

theorem splitWsAux_acc_head : ∀ (r acc : List Char), acc ≠ [] →
    ∃ u ts, splitWsAux r acc = (acc.reverse ++ u) :: ts := by
  intro r
  induction r with
  | nil =>
    intro acc h
    refine ⟨[], [], ?_⟩
    simp only [splitWsAux]
    rw [if_neg (by simpa using h)]
    simp
  | cons c rest ih =>
    intro acc h
    by_cases hc : isPySpace c
    · refine ⟨[], splitWsAux rest [], ?_⟩
      simp only [splitWsAux, if_pos hc]
      rw [if_neg (by simpa using h)]
      simp
    · obtain ⟨u, ts, hu⟩ := ih (c :: acc) (by simp)
      refine ⟨c :: u, ts, ?_⟩
      simp only [splitWsAux, if_neg hc]
      rw [hu]
      simp

theorem prefix_cross : ∀ (A x t R : List Char) (c : Char), x ++ t = A ++ c :: R →
    x <+: A ∨ ∃ x2, x = A ++ c :: x2 ∧ x2 <+: R := by
  intro A
  induction A with
  | nil =>
    intro x t R c h
    cases x with
    | nil => exact Or.inl List.nil_prefix
    | cons e x' =>
      simp only [List.cons_append, List.nil_append] at h
      injection h with h1 h2
      subst h1
      exact Or.inr ⟨x', by rw [List.nil_append], ⟨t, h2⟩⟩
  | cons b A' ih =>
    intro x t R c h
    cases x with
    | nil => exact Or.inl List.nil_prefix
    | cons e x' =>
      simp only [List.cons_append] at h
      injection h with h1 h2
      subst h1
      rcases ih x' t R c h2 with h3 | ⟨x2, hx2, hp⟩
      · exact Or.inl (List.cons_prefix_cons.mpr ⟨rfl, h3⟩)
      · exact Or.inr ⟨x2, by rw [hx2, List.cons_append], hp⟩

theorem infix_cross (c : Char) : ∀ (A x R : List Char), x <:+: A ++ c :: R →
    x <:+: A ∨ x <:+: R ∨
      ∃ x1 x2, x = x1 ++ c :: x2 ∧ x1 <:+ A ∧ x2 <+: R := by
  intro A
  induction A with
  | nil =>
    intro x R h
    obtain ⟨s, t, hst⟩ := h
    cases s with
    | nil =>
      simp only [List.nil_append] at hst
      cases x with
      | nil => exact Or.inl List.infix_rfl
      | cons e x' =>
        rw [List.cons_append] at hst
        injection hst with h1 h2
        subst h1
        exact Or.inr (Or.inr ⟨[], x', by rw [List.nil_append], List.nil_suffix, ⟨t, h2⟩⟩)
    | cons e s' =>
      simp only [List.cons_append, List.nil_append] at hst
      injection hst with h1 h2
      exact Or.inr (Or.inl ⟨s', t, h2⟩)
  | cons b A' ih =>
    intro x R h
    obtain ⟨s, t, hst⟩ := h
    cases s with
    | nil =>
      simp only [List.nil_append] at hst
      cases x with
      | nil => exact Or.inl List.nil_infix
      | cons e x' =>
        simp only [List.cons_append] at hst
        injection hst with h1 h2
        subst h1
        rcases prefix_cross A' x' t R c h2 with h3 | ⟨x2, hx2, hp⟩
        · exact Or.inl (List.cons_prefix_cons.mpr ⟨rfl, h3⟩).isInfix
        · exact Or.inr (Or.inr ⟨e :: A', x2, by rw [hx2, List.cons_append],
            List.suffix_rfl, hp⟩)
    | cons e s' =>
      simp only [List.cons_append] at hst
      injection hst with h1 h2
      subst h1
      rcases ih x R ⟨s', t, h2⟩ with h3 | h3 | ⟨x1, x2, hx, hs1, hp⟩
      · exact Or.inl (h3.trans (List.infix_cons_iff.mpr (Or.inr List.infix_rfl)))
      · exact Or.inr (Or.inl h3)
      · exact Or.inr (Or.inr ⟨x1, x2, hx, hs1.trans (List.suffix_cons e A'), hp⟩)

theorem prefix_keep : ∀ (n : Nat) (x : List Char), x.length ≤ n → x ≠ [] →
    (∀ c, x.head? = some c → ¬ isPySpace c) →
    (∀ c, x.getLast? = some c → ¬ isPySpace c) →
    (∀ c ∈ x, isPySpace c → c = ' ') →
    noDoubleSpace x = true →
    ∀ r, x <+: r → x <+: joinSpace (splitWsAux r []) := by
  intro n
  induction n with
  | zero =>
    intro x hlen hx _ _ _ _
    exact absurd (List.length_eq_zero.mp (Nat.le_zero.mp hlen)) hx
  | succ n ih =>
    intro x hlen hx hfirst hlast hws hnd r hpre
    obtain ⟨r2, hr⟩ := hpre
    subst hr
    by_cases hsp : ' ' ∈ x
    · obtain ⟨t, y, hty, hnt⟩ := split_first_space x hsp
      have htws : ∀ c ∈ t, ¬ isPySpace c := by
        intro c hm hspc
        have hce : c = ' ' := hws c (by rw [hty]; simp [hm]) hspc
        subst hce
        exact hnt hm
      have htne : t ≠ [] := by
        intro h0
        subst h0
        rw [List.nil_append] at hty
        exact hfirst ' ' (by rw [hty]; simp) (by decide)
      have hyne : y ≠ [] := by
        intro h0
        subst h0
        exact hlast ' ' (by rw [hty]; exact List.getLast?_concat t) (by decide)
      have hyhead : ∀ c, y.head? = some c → ¬ isPySpace c := by
        intro c hc hspc
        obtain ⟨d, y', hd⟩ := List.exists_cons_of_ne_nil hyne
        subst hd
        rw [List.head?_cons] at hc
        injection hc with h1
        subst h1
        have hce : d = ' ' := hws d (by rw [hty]; simp) hspc
        subst hce
        have hnd2 : noDoubleSpace (' ' :: ' ' :: y') = true :=
          noDoubleSpace_right t _ (by rw [hty] at hnd; exact hnd)
        simp [noDoubleSpace] at hnd2
      have hylast : ∀ c, y.getLast? = some c → ¬ isPySpace c := by
        intro c hc
        apply hlast c
        rw [hty, show t ++ ' ' :: y = (t ++ [' ']) ++ y from by simp,
          getLast_right _ _ hyne]
        exact hc
      have hyws : ∀ c ∈ y, isPySpace c → c = ' ' :=
        fun c hm => hws c (by rw [hty]; simp [hm])
      have hynd : noDoubleSpace y = true :=
        noDoubleSpace_right (t ++ [' ']) y
          (by rw [show (t ++ [' ']) ++ y = t ++ ' ' :: y from by simp, ← hty]
              exact hnd)
      have hxlen : x.length = t.length + y.length + 1 := by
        rw [hty]
        simp only [List.length_append, List.length_cons]
        omega
      have ht1 : 1 ≤ t.length := List.length_pos.mpr htne
      have hylen : y.length ≤ n := by omega
      rw [hty, show (t ++ ' ' :: y) ++ r2 = t ++ ' ' :: (y ++ r2) from by simp]
      rw [splitWsAux_chunk t (' ' :: (y ++ r2)) [] htws]
      simp only [List.append_nil]
      simp only [splitWsAux]
      rw [if_pos (show isPySpace ' ' = true from by decide)]
      rw [if_neg (show ¬ t.reverse.isEmpty = true from by simpa using htne)]
      rw [List.reverse_reverse]
      have hypre : y <+: joinSpace (splitWsAux (y ++ r2) []) :=
        ih y hylen hyne hyhead hylast hyws hynd (y ++ r2) (List.prefix_append y r2)
      cases hts : splitWsAux (y ++ r2) [] with
      | nil =>
        rw [hts] at hypre
        simp [joinSpace] at hypre
        exact absurd hypre hyne
      | cons t2 ts2 =>
        rw [hts] at hypre
        obtain ⟨w, hw⟩ := hypre
        refine ⟨w, ?_⟩
        simp only [joinSpace]
        rw [← hw]
        simp
    · have hxws : ∀ c ∈ x, ¬ isPySpace c := by
        intro c hm hspc
        exact hsp ((hws c hm hspc) ▸ hm)
      rw [splitWsAux_chunk x r2 [] hxws]
      simp only [List.append_nil]
      obtain ⟨u, ts, hu⟩ := splitWsAux_acc_head r2 x.reverse (by simpa using hx)
      rw [hu, List.reverse_reverse]
      exact (List.prefix_append x u).trans (self_prefix_joinSpace (x ++ u) ts)

theorem infix_keep (x : List Char) (hx : x ≠ [])
    (hfirst : ∀ c, x.head? = some c → ¬ isPySpace c)
    (hlast : ∀ c, x.getLast? = some c → ¬ isPySpace c)
    (hws : ∀ c ∈ x, isPySpace c → c = ' ')
    (hnd : noDoubleSpace x = true) :
    ∀ (l acc : List Char), x <:+: (acc.reverse ++ l) →
      x <:+: joinSpace (splitWsAux l acc) := by
  intro l
  induction l with
  | nil =>
    intro acc h
    rw [List.append_nil] at h
    simp only [splitWsAux]
    by_cases hacc : acc.isEmpty
    · rw [List.isEmpty_iff] at hacc
      rw [hacc] at h
      simp at h
      exact absurd h hx
    · rw [if_neg hacc]
      simpa [joinSpace] using h
  | cons c rest ih =>
    intro acc h
    by_cases hcw : isPySpace c
    · by_cases hcx : c ∈ x
      · have hceq : c = ' ' := hws c hcx hcw
        subst hceq
        rcases infix_cross ' ' acc.reverse x rest h with h2 | h2 | h2
        · have haccne : ¬ acc.isEmpty = true := by
            intro h0
            rw [List.isEmpty_iff] at h0
            rw [h0] at h2
            simp at h2
            exact hx h2
          simp only [splitWsAux, if_pos hcw, if_neg haccne]
          exact h2.trans (self_prefix_joinSpace acc.reverse _).isInfix
        · simp only [splitWsAux, if_pos hcw]
          by_cases hacc : acc.isEmpty
          · rw [if_pos hacc]
            exact ih [] (by simpa using h2)
          · rw [if_neg hacc]
            exact (ih [] (by simpa using h2)).trans (tail_infix_joinSpace acc.reverse _)
        · obtain ⟨x1, x2, hxeq, hx1, hx2⟩ := h2
          have hx1ne : x1 ≠ [] := by
            intro h0
            subst h0
            exact hfirst ' ' (by rw [hxeq, List.nil_append]; simp) (by decide)
          have hx2ne : x2 ≠ [] := by
            intro h0
            subst h0
            exact hlast ' ' (by rw [hxeq]; exact List.getLast?_concat x1) (by decide)
          have haccne : ¬ acc.isEmpty = true := by
            intro h0
            rw [List.isEmpty_iff] at h0
            rw [h0] at hx1
            simp at hx1
            exact hx1ne hx1
          simp only [splitWsAux, if_pos hcw, if_neg haccne]
          have hx2head : ∀ c', x2.head? = some c' → ¬ isPySpace c' := by
            intro c' hc' hspc
            obtain ⟨d, x2', hd⟩ := List.exists_cons_of_ne_nil hx2ne
            subst hd
            rw [List.head?_cons] at hc'
            injection hc' with h1
            subst h1
            have hce : d = ' ' := hws d (by rw [hxeq]; simp) hspc
            subst hce
            have hnd2 : noDoubleSpace (' ' :: ' ' :: x2') = true :=
              noDoubleSpace_right x1 _ (by rw [hxeq] at hnd; exact hnd)
            simp [noDoubleSpace] at hnd2
          have hx2last : ∀ c', x2.getLast? = some c' → ¬ isPySpace c' := by
            intro c' hc'
            apply hlast c'
            rw [hxeq, show x1 ++ ' ' :: x2 = (x1 ++ [' ']) ++ x2 from by simp,
              getLast_right _ _ hx2ne]
            exact hc'
          have hx2ws : ∀ c' ∈ x2, isPySpace c' → c' = ' ' :=
            fun c' hm => hws c' (by rw [hxeq]; simp [hm])
          have hx2nd : noDoubleSpace x2 = true :=
            noDoubleSpace_right (x1 ++ [' ']) x2
              (by rw [show (x1 ++ [' ']) ++ x2 = x1 ++ ' ' :: x2 from by simp, ← hxeq]
                  exact hnd)
          have hx2pre : x2 <+: joinSpace (splitWsAux rest []) :=
            prefix_keep x2.length x2 le_rfl hx2ne hx2head hx2last hx2ws hx2nd rest hx2
          cases hts : splitWsAux rest [] with
          | nil =>
            rw [hts] at hx2pre
            simp [joinSpace] at hx2pre
            exact absurd hx2pre hx2ne
          | cons t2 ts2 =>
            rw [hts] at hx2pre
            obtain ⟨s1, hs1⟩ := hx1
            obtain ⟨w1, hw1⟩ := hx2pre
            refine ⟨s1, w1, ?_⟩
            rw [hxeq]
            simp only [joinSpace]
            rw [← hs1, ← hw1]
            simp
      · simp only [splitWsAux, if_pos hcw]
        by_cases hacc : acc.isEmpty
        · rw [if_pos hacc]
          rw [List.isEmpty_iff] at hacc
          rw [hacc] at h
          simp only [List.reverse_nil, List.nil_append] at h
          rcases infix_split_at c [] x rest hcx (by simpa using h) with h2 | h2
          · exact absurd (List.eq_nil_of_infix_nil h2) hx
          · exact ih [] (by simpa using h2)
        · rw [if_neg hacc]
          rcases infix_split_at c acc.reverse x rest hcx h with h2 | h2
          · exact h2.trans (self_prefix_joinSpace acc.reverse _).isInfix
          · exact (ih [] (by simpa using h2)).trans
              (tail_infix_joinSpace acc.reverse _)
    · simp only [splitWsAux, if_neg hcw]
      apply ih (c :: acc)
      rw [List.reverse_cons, List.append_assoc]
      simpa using h

/-- C4 (failing evaluation): the 7-character input `"a  b"` is within the
length limit, its only match of the quoted-phrase regex is the whole
string, yet sanitize returns `"a b"`: the phrase's exact contents `a  b`
do not appear in the output, because the final whitespace normalization
runs after the phrases are reinserted and collapses the double space
inside the phrase. -/
theorem c4_quoted_phrase_not_preserved_cex :
    ("\"a  b\"" : String).length ≤ MAX_QUERY_LENGTH ∧
    findQuoted ("\"a  b\"" : String).toList = [("\"a  b\"" : String).toList] ∧
    sanitize_query "\"a  b\"" = Except.ok "\"a b\"" ∧
    containsRun ("\"a b\"" : String).toList ("a  b" : String).toList = false := by
  exact ⟨by decide, rfl, rfl, rfl⟩

/-- C4 amended: for any input within the length limit of the shape
`pre ++ dquote ++ phrase ++ dquote ++ post` where the phrase body is
non-empty, its only whitespace is the plain space and no two of its spaces
are adjacent (a whitespace run or a non-space whitespace character inside
the phrase is collapsed by the final whitespace normalization, as the
counterexample shows), no other double quote occurs, the input has no plus
sign or percent character (which unquote-plus would rewrite) and does not
already contain the literal placeholder text, sanitize succeeds and its
output contains the double-quoted phrase verbatim. -/
theorem c4_quoted_phrase_amended (s : String) (pre ph post : List Char)
    (hs : s.toList = pre ++ '"' :: (ph ++ '"' :: post))
    (hlen : s.length ≤ MAX_QUERY_LENGTH)
    (hph : ph ≠ [])
    (hphws : ∀ c ∈ ph, isPySpace c → c = ' ')
    (hphnd : noDoubleSpace ph = true)
    (hq0 : ∀ c ∈ pre, c ≠ '"')
    (hq1 : ∀ c ∈ ph, c ≠ '"')
    (hq2 : ∀ c ∈ post, c ≠ '"')
    (hplus : ∀ c ∈ s.toList, c ≠ '+')
    (hpct : ∀ c ∈ s.toList, c ≠ '%')
    (hmask : containsRun s.toList maskTok = false) :
    ∃ out : String, sanitize_query s = Except.ok out ∧
      containsRun out.toList ('"' :: (ph ++ ['"'])) = true := by
  have hlen2 : ¬ MAX_QUERY_LENGTH < s.length := by omega
  have hup : unquote_plus s.toList = s.toList := by
    unfold unquote_plus
    rw [map_plus_id _ hplus]
    unfold pyUnquote
    exact pyUnquoteAux_no_pct _ hpct
  obtain ⟨pre2, hleft, hpre2⟩ := stripLeft_mid pre ('"' :: (ph ++ '"' :: post))
    (fun c hc => by
      simp only [List.head?_cons, Option.some.injEq] at hc
      subst hc
      decide)
  obtain ⟨post2, hright, hpost2⟩ := stripRight_mid (pre2 ++ '"' :: (ph ++ ['"'])) post
    (fun c hc => by
      rw [show pre2 ++ '"' :: (ph ++ ['"']) = (pre2 ++ '"' :: ph) ++ ['"'] from by simp] at hc
      rw [List.getLast?_concat] at hc
      simp only [Option.some.injEq] at hc
      subst hc
      decide)
  have hstrip : pyStrip s.toList = pre2 ++ '"' :: (ph ++ '"' :: post2) := by
    unfold pyStrip
    rw [hs, hleft]
    rw [show pre2 ++ '"' :: (ph ++ '"' :: post)
        = (pre2 ++ '"' :: (ph ++ ['"'])) ++ post from by simp]
    rw [hright]
    simp
  have hsub1 : ∀ c ∈ pre2 ++ '"' :: (ph ++ '"' :: post2), c ∈ s.toList := by
    intro c hc
    rw [hs]
    simp only [List.mem_append, List.mem_cons] at hc ⊢
    have h1 : ∀ x, x ∈ pre2 → x ∈ pre := fun x hx => hpre2.subset hx
    have h2 : ∀ x, x ∈ post2 → x ∈ post := fun x hx => hpost2.subset hx
    tauto
  have hq2eq : (pre2 ++ '"' :: (ph ++ '"' :: post2)).map
      (fun c => if c = '+' then ' ' else c) = pre2 ++ '"' :: (ph ++ '"' :: post2) :=
    map_plus_id _ (fun c hc => hplus c (hsub1 c hc))
  have hfind : findQuoted (pre2 ++ '"' :: (ph ++ '"' :: post2)) = ['"' :: (ph ++ ['"'])] :=
    scan_structured ph post2 hph hq1 (fun c hc => hq2 c (hpost2.subset hc))
      pre2 (fun c hc => hq0 c (hpre2.subset hc))
  have hmaskq : maskQuoted (pre2 ++ '"' :: (ph ++ '"' :: post2)) = pre2 ++ maskTok ++ post2 :=
    mask_structured ph post2 hph hq1 (fun c hc => hq2 c (hpost2.subset hc))
      pre2 (fun c hc => hq0 c (hpre2.subset hc))
  have hclean : cleanChars (pre2 ++ maskTok ++ post2)
      = cleanChars pre2 ++ maskTok ++ cleanChars post2 := by
    unfold cleanChars
    rw [List.map_append, List.map_append]
    rw [show maskTok.map (fun c => if inAllowClass c then c else ' ') = maskTok from rfl]
  have hb : ∀ k, k < maskTok.length → 0 < k →
      maskTok.drop k ≠ maskTok.take (maskTok.length - k) := by decide
  have hnotin : ¬ maskTok <:+: cleanChars pre2 := by
    intro h0
    have h1 : maskTok <:+: pre2 := clean_reflect pre2 maskTok (by decide) h0
    have h2 : maskTok <:+: s.toList := by
      rw [hs]
      exact (h1.trans hpre2.isInfix).trans (List.prefix_append pre _).isInfix
    have h3 := (containsRun_true_iff s.toList maskTok).mpr h2
    rw [hmask] at h3
    exact Bool.false_ne_true h3
  have hrepl : replaceFirst (cleanChars pre2 ++ maskTok ++ cleanChars post2)
      maskTok ('"' :: (ph ++ ['"']))
      = cleanChars pre2 ++ ('"' :: (ph ++ ['"'])) ++ cleanChars post2 :=
    replaceFirst_boundary maskTok ('"' :: (ph ++ ['"'])) (by decide) hb
      (cleanChars pre2) (cleanChars post2) hnotin
  have hkeep : ('"' :: (ph ++ ['"'])) <:+:
      normalizeWs (cleanChars pre2 ++ ('"' :: (ph ++ ['"'])) ++ cleanChars post2) := by
    unfold normalizeWs pySplitWs
    exact infix_keep ('"' :: (ph ++ ['"'])) (by simp)
      (fun c hc => by
        rw [List.head?_cons] at hc
        injection hc with h1
        subst h1
        decide)
      (fun c hc => by
        rw [show '"' :: (ph ++ ['"']) = ('"' :: ph) ++ ['"'] from by
              rw [List.cons_append],
          List.getLast?_concat] at hc
        injection hc with h1
        subst h1
        decide)
      (fun c hc hsp => by
        simp only [List.mem_cons, List.mem_append, List.mem_singleton] at hc
        rcases hc with h | h | h | h
        · subst h; exact absurd hsp (by decide)
        · exact hphws c h hsp
        · subst h; exact absurd hsp (by decide)
        · exact absurd h (List.not_mem_nil c))
      (noDoubleSpace_cons '"' (ph ++ ['"']) (by decide)
        (noDoubleSpace_concat ph '"' (by decide) hphnd))
      (cleanChars pre2 ++ ('"' :: (ph ++ ['"'])) ++ cleanChars post2) []
      (by exact ⟨cleanChars pre2, cleanChars post2, rfl⟩)
  have hne : normalizeWs (cleanChars pre2 ++ ('"' :: (ph ++ ['"'])) ++ cleanChars post2)
      ≠ [] := by
    intro h0
    rw [h0] at hkeep
    exact absurd (List.eq_nil_of_infix_nil hkeep) (by simp)
  refine ⟨String.mk (normalizeWs
    (cleanChars pre2 ++ ('"' :: (ph ++ ['"'])) ++ cleanChars post2)), ?_, ?_⟩
  · unfold sanitize_query
    rw [if_neg hlen2]
    simp only [hup, hstrip, hq2eq, hfind, hmaskq, hclean, List.foldl_cons,
      List.foldl_nil, hrepl]
    rw [if_neg (by simpa [List.isEmpty_iff] using hne)]
  · rw [show (String.mk (normalizeWs
      (cleanChars pre2 ++ ('"' :: (ph ++ ['"'])) ++ cleanChars post2))).toList
      = normalizeWs (cleanChars pre2 ++ ('"' :: (ph ++ ['"'])) ++ cleanChars post2)
      from rfl]
    exact (containsRun_true_iff _ _).mpr hkeep

/-- Witness for the amended C4 at the input `c "a b" d`, whose quoted
phrase holds a single internal space: sanitize succeeds and the output
contains the quoted phrase `"a b"` verbatim. -/
theorem c4_quoted_phrase_amended_witness :
    ∃ out : String, sanitize_query "c \"a b\" d" = Except.ok out ∧
      containsRun out.toList ('"' :: (['a', ' ', 'b'] ++ ['"'])) = true :=
  c4_quoted_phrase_amended "c \"a b\" d" ['c', ' '] ['a', ' ', 'b'] [' ', 'd']
    (by decide) (by decide) (by decide) (by decide) (by decide) (by decide)
    (by decide) (by decide) (by decide) (by decide) (by decide)

/-- C1: for any configuration, any integer page ≥ 1 and limit in
[1, MAX_RESULTS_PER_PAGE], the computed upstream offset is
(page-1)*limit+1 and is strictly increasing in page for fixed limit;
pagination validation succeeds whenever that offset stays within 10000 and
fails with the OffsetExceeded error (instead of returning) for any pair
whose offset exceeds 10000. -/
theorem c1_pagination_offset (cfg : Config) (page limit : Int)
    (h1 : 1 ≤ page) (h2 : 1 ≤ limit) (h3 : limit ≤ cfg.MAX_RESULTS_PER_PAGE) :
    calculate_offset page limit = (page - 1) * limit + 1 ∧
    (calculate_offset page limit ≤ 10000 →
      validate_pagination cfg page (some limit) = .ok (page, limit)) ∧
    (10000 < calculate_offset page limit →
      validate_pagination cfg page (some limit) =
        .error "Requested page exceeds maximum offset of 10000") ∧
    (∀ page2 : Int, page < page2 →
      calculate_offset page limit < calculate_offset page2 limit) := by
  refine ⟨rfl, ?_, ?_, ?_⟩
  · intro h
    unfold calculate_offset at h
    simp only [validate_pagination]
    rw [if_neg (by omega), if_neg (by omega), if_neg (by omega), if_neg (by omega)]
  · intro h
    unfold calculate_offset at h
    simp only [validate_pagination]
    rw [if_neg (by omega), if_neg (by omega), if_neg (by omega), if_pos (by omega)]
  · intro page2 hp
    unfold calculate_offset
    have hm : (page - 1) * limit < (page2 - 1) * limit :=
      mul_lt_mul_of_pos_right (by omega) (by omega)
    omega

/-- Witness for C1 at page 3, limit 10 under the default configuration. -/
theorem c1_pagination_offset_witness :
    validate_pagination defaultConfig 3 (some 10) = .ok (3, 10) ∧
    calculate_offset 3 10 = 21 := by
  have h := c1_pagination_offset defaultConfig 3 10 (by decide) (by decide) (by decide)
  exact ⟨h.2.1 (by decide), by decide⟩

/-- C2 (failing evaluation): the page-number-less-than-1 rejection of the
HTTP handler answers 400 with a payload keyed "total results" (with a
space) and no "total_results" key, so this failure path does not carry the
ErrorResponse shape the claim states. -/
theorem c2_page_zero_key_mismatch :
    (appSearch defaultConfig "python" (some "0") none none none
      ⟨none, none⟩ 0 .failure (fun _ => .timeout)) =
      (.obj [("error", .str "Page number must be greater than 0"),
             ("total results", .int 0), ("results", .arr [])], 400) ∧
    jsonGetKey (appSearch defaultConfig "python" (some "0") none none none
      ⟨none, none⟩ 0 .failure (fun _ => .timeout)).1 "total_results" = none ∧
    jsonGetKey (appSearch defaultConfig "python" (some "0") none none none
      ⟨none, none⟩ 0 .failure (fun _ => .timeout)).1 "total results" =
      some (.int 0) := by
  exact ⟨rfl, rfl, rfl⟩

/-- C3 (failing evaluation): the sort mapping table sends title_desc to
"title desc", which the defensive re-check against VALID_SORT_OPTIONS then
rejects, so a search with sort=title_desc is answered 400 by the
pipeline's sort validation; bogus_desc fails in the mapper itself. -/
theorem c3_title_desc_rejected :
    map_springshare_sort (some "title_desc") = .ok "title desc" ∧
    VALID_SORT_OPTIONS.contains "title desc" = false ∧
    validate_sort "title_desc" =
      .error ("Invalid sort option. Must be one of: library, recency, " ++
        "bestMatch, creator, publicationDateAsc, publicationDateDesc, " ++
        "mostWidelyHeld, title") ∧
    map_springshare_sort (some "bogus_desc") =
      .error ("Invalid sort field 'bogus'. Valid options: relevancy, " ++
        "title, date, library, creator, popularity") ∧
    (search_worldcat defaultConfig ⟨none, none⟩ 0 .failure "python" 1 none
      none (some "title_desc") (fun _ => .timeout)).2 = 400 := by
  refine ⟨rfl, by decide, rfl, rfl, rfl⟩

/-- C7: the embedded `format_results` is a total function of the upstream
JSON and the library symbol — the success value when the body succeeds, and
otherwise the degraded payload, which reports zero total results and an
empty results list. -/
theorem c7_formatter_never_raises (cfg : Config) (body : Json) (sym : Option String) :
    (∀ r, format_results_inner cfg body sym = .ok r →
      format_results cfg body sym = r) ∧
    (∀ e, format_results_inner cfg body sym = .error e →
      format_results cfg body sym = fallbackResponse cfg ∧
      jsonGetKey (format_results cfg body sym) "total_results" = some (.int 0) ∧
      jsonGetKey (format_results cfg body sym) "results" = some (.arr [])) := by
  constructor
  · intro r h
    simp [format_results, h]
  · intro e h
    have hf : format_results cfg body sym = fallbackResponse cfg := by
      simp [format_results, h]
    rw [hf]
    exact ⟨rfl, rfl, rfl⟩

/-- Witness for C7 at a malformed upstream body (a bare number). -/
theorem c7_formatter_never_raises_witness :
    format_results defaultConfig (.int 3) none = fallbackResponse defaultConfig ∧
    jsonGetKey (format_results defaultConfig (.int 3) none) "total_results" =
      some (.int 0) ∧
    jsonGetKey (format_results defaultConfig (.int 3) none) "results" =
      some (.arr []) :=
  (c7_formatter_never_raises defaultConfig (.int 3) none).2 .attributeError rfl

theorem ok_bind {ε α β : Type} (a : α) (f : α → Except ε β) :
    (Except.ok a >>= f : Except ε β) = f a := rfl

theorem error_bind {ε α β : Type} (e : ε) (f : α → Except ε β) :
    (Except.error e >>= f : Except ε β) = .error e := rfl

theorem formatLoop_length (cfg : Config) (site : String) :
    ∀ (l fs : List Json), formatLoop cfg site l = .ok fs → fs.length = l.length := by
  intro l
  induction l with
  | nil =>
    intro fs h
    simp only [formatLoop] at h
    cases h
    rfl
  | cons it rest ih =>
    intro fs h
    simp only [formatLoop] at h
    cases hfi : formatItem cfg site it with
    | error e => rw [hfi] at h; cases h
    | ok fi =>
      rw [hfi] at h
      cases hfs : formatLoop cfg site rest with
      | error e => rw [hfs] at h; cases h
      | ok fs2 =>
        rw [hfs] at h
        cases h
        simp [ih fs2 hfs]

/-- C5: on a well-formed upstream body whose records all format, the
response's perpage equals min(number of items returned, configured default
page size) — not the caller's requested limit, which `format_results` never
sees — and the results list is exactly the first perpage formatted
items. -/
theorem c5_perpage_min (cfg : Config) (sym : Option String) (total : Json)
    (items fs : List Json)
    (hdef : 0 ≤ cfg.DEFAULT_RESULTS_PER_PAGE)
    (hfmt : formatLoop cfg (get_discovery_site sym cfg)
      (items.take (min (items.length : Int) cfg.DEFAULT_RESULTS_PER_PAGE).toNat) =
        .ok fs) :
    format_results cfg
        (.obj [("numberOfRecords", total), ("briefRecords", .arr items)]) sym =
      .obj [("total_results", total),
            ("perpage", .int (min (items.length : Int) cfg.DEFAULT_RESULTS_PER_PAGE)),
            ("sort", sortObjJson), ("sort_options", sortOptionsJson),
            ("results", .arr fs)] ∧
    fs.length = (min (items.length : Int) cfg.DEFAULT_RESULTS_PER_PAGE).toNat := by
  have hnneg : 0 ≤ min (items.length : Int) cfg.DEFAULT_RESULTS_PER_PAGE :=
    le_min (Int.ofNat_nonneg _) hdef
  constructor
  · have hne : ¬ (min (items.length : Int) cfg.DEFAULT_RESULTS_PER_PAGE < 0) :=
      not_lt.mpr hnneg
    unfold format_results format_results_inner
    simp [dictGet, lookupStr, pyLen, sliceIter, pySliceTake, if_neg hne, hfmt,
      ok_bind]
    rw [if_neg (by push_neg; exact ⟨Int.ofNat_nonneg _, hdef⟩), hfmt]
    rfl
  · have hlen := formatLoop_length cfg (get_discovery_site sym cfg) _ _ hfmt
    rw [hlen, List.length_take]
    rcases le_total (items.length : Int) cfg.DEFAULT_RESULTS_PER_PAGE with h | h
    · rw [min_eq_left h]
      omega
    · rw [min_eq_right h]
      omega

/-- Witness for C5: one upstream record under the default configuration
yields perpage 1 and that record formatted. -/
theorem c5_perpage_min_witness :
    format_results defaultConfig
        (.obj [("numberOfRecords", .int 2),
               ("briefRecords", .arr [.obj [("title", .str "T")]])]) none =
      .obj [("total_results", .int 2),
            ("perpage", .int 1),
            ("sort", sortObjJson), ("sort_options", sortOptionsJson),
            ("results", .arr
              [.obj [("title", .str "T"), ("ocn", .str ""),
                ("url", .str
                  "https://worldcat.on.worldcat.org/search?queryString=ti%3AT"),
                ("author", .str ""), ("date", .str ""),
                ("publisher", .str ""), ("identifier", .str ""),
                ("format", .str "")]])] :=
  (c5_perpage_min defaultConfig none (.int 2) [.obj [("title", .str "T")]]
    [.obj [("title", .str "T"), ("ocn", .str ""),
      ("url", .str "https://worldcat.on.worldcat.org/search?queryString=ti%3AT"),
      ("author", .str ""), ("date", .str ""), ("publisher", .str ""),
      ("identifier", .str ""), ("format", .str "")]]
    (by decide) rfl).1

/-- C9: an empty-string sort parameter is falsy, so the pipeline skips sort
validation entirely and behaves exactly as with no sort parameter — it can
never produce an InvalidSort error — and the upstream call it issues
depends on the world only through parameters whose orderBy is bestMatch. -/
theorem c9_empty_sort (cfg : Config) (st : AuthState) (now : Int)
    (refresh : RefreshResult) (q : String) (page : Int) (limit : Option Int)
    (ref : Option String) (w1 w2 : SearchParams → FetchResult) :
    search_worldcat cfg st now refresh q page limit ref (some "") w1 =
      search_worldcat cfg st now refresh q page limit ref none w1 ∧
    ((∀ p : SearchParams, p.orderBy = "bestMatch" → w1 p = w2 p) →
      search_worldcat cfg st now refresh q page limit ref (some "") w1 =
        search_worldcat cfg st now refresh q page limit ref (some "") w2) := by
  have hchk : sortCheck (some "") = sortCheck none := rfl
  have hmap : mapSortOpt (some "") = mapSortOpt none := rfl
  constructor
  · unfold search_worldcat searchCore
    simp only [hchk, hmap]
  · intro h
    suffices h2 : searchCore cfg st now refresh q page limit ref (some "") w1 =
        searchCore cfg st now refresh q page limit ref (some "") w2 by
      unfold search_worldcat
      rw [h2]
    unfold searchCore
    simp only [show mapSortOpt (some "") = Except.ok none from rfl]
    split
    · rfl
    · split
      · rfl
      · split
        · rfl
        · split
          · rfl
          · cases hgt : get_valid_token st now refresh with
            | error e => rfl
            | ok p =>
              simp only [ok_bind]
              split
              · rfl
              · rw [h _ rfl]

/-- Witness for C9: concrete runs with the empty-string sort agree with the
default-sort run, and with a world modified away from bestMatch orderBy. -/
theorem c9_empty_sort_witness :
    search_worldcat defaultConfig ⟨none, none⟩ 0 .failure "python" 1 none none
        (some "") (fun _ => .timeout) =
      search_worldcat defaultConfig ⟨none, none⟩ 0 .failure "python" 1 none none
        none (fun _ => .timeout) ∧
    search_worldcat defaultConfig ⟨none, none⟩ 0 .failure "python" 1 none none
        (some "") (fun _ => .timeout) =
      search_worldcat defaultConfig ⟨none, none⟩ 0 .failure "python" 1 none none
        (some "")
        (fun p => if p.orderBy = "bestMatch" then .timeout else .failure "x") := by
  refine ⟨?_, ?_⟩
  · exact (c9_empty_sort defaultConfig ⟨none, none⟩ 0 .failure "python" 1 none
      none (fun _ => .timeout) (fun _ => .timeout)).1
  · exact (c9_empty_sort defaultConfig ⟨none, none⟩ 0 .failure "python" 1 none
      none (fun _ => .timeout)
      (fun p => if p.orderBy = "bestMatch" then .timeout else .failure "x")).2
      (fun p hp => by rw [hp]; rfl)

/-- C10: the formatter's fallback payload has no error key, and when the
pipeline reaches formatting and the formatter degrades internally, both
`search_worldcat` and the HTTP handler return that fallback with status
200 — indistinguishable to the caller from a successful search with zero
results. -/
theorem c10_fallback_is_200 (cfg : Config) (st : AuthState) (now : Int)
    (refresh : RefreshResult) (qArg q cq : String) (body t : Json)
    (st2 : AuthState) (ref : Option String)
    (world : SearchParams → FetchResult)
    (hqa : String.mk (pyStrip qArg.toList) = q)
    (hqne : q ≠ "")
    (hqstrip : pyStrip q.toList = q.toList)
    (hlen : q.length ≤ 500)
    (hdef1 : 1 ≤ cfg.DEFAULT_RESULTS_PER_PAGE)
    (hdefmax : cfg.DEFAULT_RESULTS_PER_PAGE ≤ cfg.MAX_RESULTS_PER_PAGE)
    (hsan : sanitize_query q = .ok cq)
    (htok : get_valid_token st now refresh = .ok (some t, st2))
    (htr : pyTruthy t = true)
    (hw : ∀ p, world p = .success body)
    (hfmt : ∃ e, format_results_inner cfg body
      (some (get_library_symbol cfg ref)) = .error e) :
    jsonGetKey (fallbackResponse cfg) "error" = none ∧
    search_worldcat cfg st now refresh q 1 (some cfg.DEFAULT_RESULTS_PER_PAGE)
      ref none world = (fallbackResponse cfg, 200) ∧
    appSearch cfg qArg none none none ref st now refresh world =
      (fallbackResponse cfg, 200) := by
  have hql : q.toList ≠ [] := by
    intro h0
    apply hqne
    cases q with
    | mk data =>
      simp only [String.toList] at h0
      simp [h0]
  have hpag : validate_pagination cfg 1 (some cfg.DEFAULT_RESULTS_PER_PAGE) =
      .ok (1, cfg.DEFAULT_RESULTS_PER_PAGE) := by
    have h1 : ¬ ((1 : Int) < 1) := by omega
    have h2 : ¬ (cfg.DEFAULT_RESULTS_PER_PAGE < 1) := by omega
    have h3 : ¬ (cfg.MAX_RESULTS_PER_PAGE < cfg.DEFAULT_RESULTS_PER_PAGE) := by
      omega
    have h4 : ¬ ((10000 : Int) < ((1 : Int) - 1) * cfg.DEFAULT_RESULTS_PER_PAGE + 1) := by
      omega
    simp [validate_pagination, h1, h2, h3, h4]
  obtain ⟨e, he⟩ := hfmt
  have hsw : search_worldcat cfg st now refresh q 1
      (some cfg.DEFAULT_RESULTS_PER_PAGE) ref none world =
      (fallbackResponse cfg, 200) := by
    have hc : (decide (q = "") || decide (pyStrip q.toList = [])) = false := by
      have h1 : pyStrip q.data = q.data := hqstrip
      have h2 : q.data ≠ [] := hql
      simp [hqne, h1, h2]
    unfold search_worldcat searchCore
    simp only [hc, hsan, hpag, htok, ok_bind, htr, hw, sortCheck, mapSortOpt,
      format_results, he]
    rfl
  refine ⟨rfl, hsw, ?_⟩
  have ha1 : ¬ ((1 : Int) < 1) := by omega
  have ha2 : ¬ (cfg.DEFAULT_RESULTS_PER_PAGE < 1 ∨
      cfg.MAX_RESULTS_PER_PAGE < cfg.DEFAULT_RESULTS_PER_PAGE) := by
    push_neg
    exact ⟨hdef1, hdefmax⟩
  subst hqa
  have hlen2 := not_lt.mpr hlen
  unfold appSearch
  simp only [String.toList] at hqne hlen2 hsw ⊢
  simp [hqne, hlen2, ha1, ha2, hsw, fallbackResponse, lookupStr]
  simp only [String.length, MAX_QUERY_LENGTH] at hlen2 ⊢
  omega

/-- Witness for C10: a concrete request whose upstream body is a bare
number, so formatting degrades, yet the handler answers 200 with the
fallback payload. -/
theorem c10_fallback_is_200_witness :
    appSearch defaultConfig "python" none none none none
      ⟨some (.obj [("access_token", .str "tk")]), some 1000⟩ 0 .failure
      (fun _ => .success (.int 3)) = (fallbackResponse defaultConfig, 200) :=
  (c10_fallback_is_200 defaultConfig
    ⟨some (.obj [("access_token", .str "tk")]), some 1000⟩ 0 .failure
    "python" "python" "python" (.int 3) (.str "tk")
    ⟨some (.obj [("access_token", .str "tk")]), some 1000⟩ none
    (fun _ => .success (.int 3))
    rfl (by decide) rfl (by decide) (by decide) (by decide) rfl rfl rfl
    (fun _ => rfl) ⟨.attributeError, rfl⟩).2.2

end SOS
